import Mathlib

/-!
A shallow embedding of the proto-to-gunk converter (`convert.go`) and proofs
about its translation rules.

Modelling conventions:
* Go strings are Lean `String`s; Go `int` is Lean `Int`; `map[string]bool`
  used as a set is a duplicate-free `List String` with idempotent insertion.
* Stateful methods on `builder` become explicit state passing: each handler
  is split into a pure "core" computing the text chunk, stderr warnings and
  the imports it marks, plus a wrapper updating the `Builder` record.
* Fallible code returns `Except Err _`; warnings printed to stderr are
  accumulated in a list.
* `proto.Literal` is recursive in the real AST; this code only ever reads
  one nesting level (an option constant and the literals in its ordered
  map), so map-entry literals are flattened to `LiteralLite`.
-/

namespace Gunk

/-- A source position (`text/scanner.Position`): line and column. -/
structure Position where
  line : Nat
  col : Nat
  deriving DecidableEq, Repr

/-- A leading comment (`proto.Comment`): its lines. -/
structure Comment where
  lines : List String
  deriving DecidableEq, Repr

/-- One level of a literal as read by this converter: `IsString`, `Source`. -/
structure LiteralLite where
  isString : Bool
  source : String
  deriving DecidableEq, Repr

/-- An entry of the `OrderedMap` of an option constant: name plus its literal. -/
structure NamedLiteral where
  name : String
  literal : LiteralLite
  deriving DecidableEq, Repr

/-- An option constant (`proto.Literal` at the top level): `IsString`,
`Source`, and its `OrderedMap` of named sub-literals. -/
structure Literal where
  isString : Bool
  source : String
  orderedMap : List NamedLiteral
  deriving DecidableEq, Repr

/-- A `proto.Option`: name, constant, source position, leading comment. -/
structure ProtoOption where
  name : String
  constant : Literal
  position : Position
  comment : Option Comment := none
  deriving DecidableEq, Repr

/-- A `proto.Package`: name and leading comment. -/
structure ProtoPackage where
  name : String
  comment : Option Comment := none
  deriving DecidableEq, Repr

/-- A `proto.Import`: the imported filename. -/
structure ProtoImport where
  filename : String
  deriving DecidableEq, Repr

/-- `errors` carried by the converter: either annotated with a source
position (`builder.formatError`) or plain (`fmt.Errorf`). -/
inductive Err where
  | atPos (pos : Position) (msg : String)
  | plain (msg : String)
  deriving DecidableEq, Repr

/-- `builder.formatError`: an error carrying the offending position, with the
message prefixed by `filename:line:col`. -/
def formatErr (fname : String) (pos : Position) (msg : String) : Err :=
  .atPos pos (fname ++ ":" ++ toString pos.line ++ ":" ++ toString pos.col ++ ": " ++ msg)

/-- A warning line printed to stderr (`fmt.Fprintln(os.Stderr, b.formatError(...))`). -/
def diag (fname : String) (pos : Position) (msg : String) : String :=
  fname ++ ":" ++ toString pos.line ++ ":" ++ toString pos.col ++ ": " ++ msg

/-- Go `%q` on a string: quote it, escaping the characters this converter
can actually meet in names/paths/values. -/
def goQuoteChar (c : Char) : String :=
  if c = '"' then "\\\""
  else if c = '\\' then "\\\\"
  else if c = '\n' then "\\n"
  else if c = '\t' then "\\t"
  else String.singleton c

/-- Go `%q` on a string. -/
def goQuote (s : String) : String :=
  "\"" ++ String.join (s.data.map goQuoteChar) ++ "\""

/-- Go `strings.ToUpper` restricted to ASCII (all inputs here are ASCII verbs). -/
def strToUpper (s : String) : String :=
  String.mk (s.data.map Char.toUpper)

/-- `indent` tab characters. -/
def tabs : Nat → String
  | 0 => ""
  | n + 1 => tabs n ++ "\t"

/-- `builder.format`: write each comment line indented as `//<line>`, then
(if the payload is non-empty) the indentation and the payload. -/
def formatStr (indent : Nat) (c : Option Comment) (s : String) : String :=
  (match c with
   | none => ""
   | some cm => String.join (cm.lines.map (fun l => tabs indent ++ "//" ++ l ++ "\n")))
  ++ (if s = "" then "" else tabs indent ++ s)

/-- Concatenation of a list of strings (in order). -/
def strConcat : List String → String
  | [] => ""
  | s :: r => s ++ strConcat r

/-- Insertion into the `importsUsed` set (`map[string]bool`): adding an
already-present key is a no-op. -/
def setInsert (l : List String) (k : String) : List String :=
  if k ∈ l then l else l ++ [k]

/-- `builder.goType`: turn a proto scalar type into the Go type; anything
unrecognised is passed through unchanged as a custom type. -/
def goType (fieldType : String) : String :=
  if fieldType = "bool" then "bool"
  else if fieldType = "string" then "string"
  else if fieldType = "bytes" then "[]byte"
  else if fieldType = "double" then "float64"
  else if fieldType = "float" then "float32"
  else if fieldType = "int32" then "int"
  else if fieldType = "sint32" then "int32"
  else if fieldType = "sfixed32" then "int32"
  else if fieldType = "int64" then "int64"
  else if fieldType = "sint64" then "int64"
  else if fieldType = "sfixed64" then "int64"
  else if fieldType = "uint32" then "uint32"
  else if fieldType = "fixed32" then "uint32"
  else if fieldType = "uint64" then "uint64"
  else if fieldType = "fixed64" then "uint64"
  else fieldType

/-- The 15 fixed proto scalar type names recognised by `goType`. -/
def protoScalars : List String :=
  ["bool", "string", "bytes", "double", "float", "int32", "sint32", "sfixed32",
   "int64", "sint64", "sfixed64", "uint32", "fixed32", "uint64", "fixed64"]

/-- Split a character list on `_` (accumulator holds the current word
reversed). -/
def splitUnderscore : List Char → List Char → List (List Char)
  | [], acc => [acc.reverse]
  | '_' :: rest, _acc => _acc.reverse :: splitUnderscore rest []
  | c :: rest, acc => splitUnderscore rest (c :: acc)

/-- Upper-case the first character of a word. -/
def capitalizeChars : List Char → List Char
  | [] => []
  | c :: rest => c.toUpper :: rest

/-- Modelled from the spec: the camel-case conversion of the external snaker library
conversion — a deterministic word-boundary split on `_`, capitalising each
word (`snaker.ForceCamelIdentifier`). -/
def forceCamelIdentifier (s : String) : String :=
  String.join ((splitUnderscore s.data []).map (fun w => String.mk (capitalizeChars w)))

/-- Modelled from the spec: `snaker.CamelToSnake` — lower-case everything,
inserting `_` before each non-leading upper-case letter. -/
def camelToSnakeAux : Bool → List Char → List Char
  | _, [] => []
  | first, c :: rest =>
    if c.isUpper ∧ ¬ first then '_' :: c.toLower :: camelToSnakeAux false rest
    else c.toLower :: camelToSnakeAux false rest

/-- Modelled from the spec: `snaker.CamelToSnake`. -/
def camelToSnake (s : String) : String := String.mk (camelToSnakeAux true s.data)

/-- A `proto.NormalField`. -/
structure NormalField where
  name : String
  type : String
  sequence : Int
  repeated : Bool
  comment : Option Comment := none
  options : List ProtoOption := []
  position : Position := ⟨0, 0⟩
  deriving DecidableEq, Repr

/-- A `proto.MapField` (its embedded `Field` flattened: `Field.Name`,
`Field.Sequence`, `Field.Type` are `name`, `sequence`, `type`). Map fields
carry no repeated flag in the AST. -/
structure MapField where
  name : String
  type : String
  keyType : String
  sequence : Int
  comment : Option Comment := none
  options : List ProtoOption := []
  position : Position := ⟨0, 0⟩
  deriving DecidableEq, Repr

/-- The two field kinds `handleMessageField` is invoked on. -/
inductive MsgField where
  | normal (f : NormalField)
  | mapF (f : MapField)
  deriving DecidableEq, Repr

/-- An element of a `proto.EnumField` (only options are inspected). -/
inductive EnumValueElem where
  | opt (o : ProtoOption)
  | other (t : String)
  deriving DecidableEq, Repr

/-- A `proto.EnumField`: name, integer value, comment, inner elements. -/
structure EnumField where
  name : String
  integer : Int
  comment : Option Comment := none
  elements : List EnumValueElem := []
  position : Position := ⟨0, 0⟩
  deriving DecidableEq, Repr

/-- An element of a `proto.Enum`; `other` stands for any unexpected
declaration kind, carrying the Go `%T` type name. -/
inductive EnumElem where
  | field (ef : EnumField)
  | opt (o : ProtoOption)
  | other (t : String)
  deriving DecidableEq, Repr

/-- A `proto.Enum`. -/
structure Enum where
  name : String
  comment : Option Comment := none
  elements : List EnumElem := []
  position : Position := ⟨0, 0⟩
  deriving DecidableEq, Repr

/-- An element of a `proto.Message`; `other` stands for any unexpected
declaration kind. -/
inductive MsgElem where
  | normalField (f : NormalField)
  | enum (e : Enum)
  | comment (c : Comment)
  | mapField (f : MapField)
  | opt (o : ProtoOption)
  | other (t : String)
  deriving DecidableEq, Repr

/-- A `proto.Message`. -/
structure Message where
  name : String
  comment : Option Comment := none
  elements : List MsgElem := []
  position : Position := ⟨0, 0⟩
  deriving DecidableEq, Repr

/-- An element of a `proto.RPC` (only options are valid). -/
inductive RPCElem where
  | opt (o : ProtoOption)
  | other (t : String)
  deriving DecidableEq, Repr

/-- A `proto.RPC`. -/
structure RPC where
  name : String
  requestType : String
  returnsType : String
  comment : Option Comment := none
  elements : List RPCElem := []
  position : Position := ⟨0, 0⟩
  deriving DecidableEq, Repr

/-- An element of a `proto.Service`. -/
inductive ServiceElem where
  | rpc (r : RPC)
  | opt (o : ProtoOption)
  | other (t : String)
  deriving DecidableEq, Repr

/-- A `proto.Service`. -/
structure Service where
  name : String
  comment : Option Comment := none
  elements : List ServiceElem := []
  position : Position := ⟨0, 0⟩
  deriving DecidableEq, Repr

/-- A top-level element of the parsed document (`proto.Visitee`); `syn` is
the syntax marker, `other` any unhandled kind. -/
inductive TopElem where
  | syn
  | pkg (p : ProtoPackage)
  | imp (i : ProtoImport)
  | message (m : Message)
  | enum (e : Enum)
  | service (s : Service)
  | opt (o : ProtoOption)
  | other (t : String)
  deriving DecidableEq, Repr

/-- The `builder` state, with stderr made explicit. -/
structure Builder where
  filename : String
  translatedDeclarations : List String
  pkg : Option ProtoPackage
  pkgOpts : List ProtoOption
  imports : List ProtoImport
  importsUsed : List String
  stderr : List String
  deriving DecidableEq, Repr

/-- The builder `convertFile` starts from. -/
def initBuilder (fname : String) : Builder :=
  { filename := fname, translatedDeclarations := [], pkg := none, pkgOpts := [],
    imports := [], importsUsed := [], stderr := [] }

/-- `builder.handleLiteralString`. -/
def handleLiteralString (lit : LiteralLite) : Except String String :=
  if lit.isString then .ok lit.source else .error "literal was expected to be a string"

/-- `builder.handleMessageField`, as a pure core: the emitted struct-member
line and the stderr warnings for its (always unrecognised) options. -/
def handleMessageFieldCore (fname : String) (field : MsgField) : String × List String :=
  let (name, typ, sequence, repeated, comment, options) :=
    match field with
    | .normal ft => (ft.name, goType ft.type, ft.sequence, ft.repeated, ft.comment, ft.options)
    | .mapF ft =>
      (ft.name, "map[" ++ goType ft.keyType ++ "]" ++ goType ft.type,
       ft.sequence, false, ft.comment, ft.options)
  let typ := if repeated then "[]" ++ typ else typ
  let warns := options.map
    (fun o => diag fname o.position ("unhandled field option " ++ goQuote o.name))
  (formatStr 1 comment (forceCamelIdentifier name ++ " " ++ typ)
     ++ " `pb:\"" ++ toString sequence ++ "\" json:\"" ++ camelToSnake name ++ "\"`\n",
   warns)

/-- First loop of `builder.handleEnum` (index over all elements): decides
whether the enum can be output with iota, warns on enum options, and fails
on any unexpected element kind. -/
def enumScan (fname : String) (epos : Position) : Nat → List EnumElem → Except Err (Bool × List String)
  | _, [] => .ok (true, [])
  | i, .field ef :: rest =>
    match enumScan fname epos (i + 1) rest with
    | .error e => .error e
    | .ok (dec, ws) => .ok ((decide ((i : Int) = ef.integer)) && dec, ws)
  | i, .opt o :: rest =>
    match enumScan fname epos (i + 1) rest with
    | .error e => .error e
    | .ok (dec, ws) =>
      .ok (dec, diag fname o.position ("unhandled enum option " ++ goQuote o.name) :: ws)
  | _, .other t :: _ =>
    .error (formatErr fname epos ("unexpected type " ++ t ++ " in enum, expected enum field"))

/-- Warnings for the (unhandled) options attached to a single enum value. -/
def enumValueWarns (fname : String) (ef : EnumField) : List String :=
  ef.elements.filterMap (fun el =>
    match el with
    | .opt o => some (diag fname o.position ("unhandled enumvalue option " ++ goQuote o.name))
    | .other _ => none)

/-- Second loop of `builder.handleEnum`: emit each enum value (skipping
non-field elements), as iota or as an explicit constant. -/
def enumEmit (fname ename : String) (iota : Bool) : Nat → List EnumElem → String × List String
  | _, [] => ("", [])
  | i, .field ef :: rest =>
    let (s, ws) := enumEmit fname ename iota (i + 1) rest
    let line :=
      if ¬ iota then
        formatStr 1 ef.comment (ef.name ++ " " ++ ename ++ " = " ++ toString ef.integer ++ "\n")
      else if i = 0 then
        formatStr 1 ef.comment (ef.name ++ " " ++ ename ++ " = iota\n")
      else
        formatStr 1 ef.comment (ef.name ++ "\n")
    (line ++ s, enumValueWarns fname ef ++ ws)
  | i, .opt _ :: rest => enumEmit fname ename iota (i + 1) rest
  | i, .other _ :: rest => enumEmit fname ename iota (i + 1) rest

/-- `builder.handleEnum` as a pure core: the emitted const block and the
stderr warnings. -/
def handleEnumCore (fname : String) (e : Enum) : Except Err (String × List String) :=
  match enumScan fname e.position 0 e.elements with
  | .error err => .error err
  | .ok (outputIota, ws1) =>
    let (body, ws2) := enumEmit fname e.name outputIota 0 e.elements
    .ok (formatStr 0 e.comment ("type " ++ e.name ++ " int\n")
           ++ "\nconst (\n" ++ body ++ ")",
         ws1 ++ ws2)

/-- Loop of `builder.handleMessage` over the message elements, returning
(hoisted nested-enum blocks, struct body text, warnings). The result of
translating a nested enum is discarded on error (source line 316 ignores
the return value of `handleEnum`). -/
def msgLoop (fname : String) (mpos : Position) : List MsgElem → Except Err (List String × String × List String)
  | [] => .ok ([], "", [])
  | .normalField f :: rest =>
    match msgLoop fname mpos rest with
    | .error e => .error e
    | .ok (hs, s, ws) =>
      .ok (hs, (handleMessageFieldCore fname (.normal f)).1 ++ s,
           (handleMessageFieldCore fname (.normal f)).2 ++ ws)
  | .enum en :: rest =>
    match handleEnumCore fname en with
    | .ok (blk, ews) =>
      match msgLoop fname mpos rest with
      | .error e => .error e
      | .ok (hs, s, ws) => .ok (blk :: hs, s, ews ++ ws)
    | .error _ => msgLoop fname mpos rest
  | .comment c :: rest =>
    match msgLoop fname mpos rest with
    | .error e => .error e
    | .ok (hs, s, ws) => .ok (hs, formatStr 1 (some c) "" ++ s, ws)
  | .mapField f :: rest =>
    match msgLoop fname mpos rest with
    | .error e => .error e
    | .ok (hs, s, ws) =>
      .ok (hs, (handleMessageFieldCore fname (.mapF f)).1 ++ s,
           (handleMessageFieldCore fname (.mapF f)).2 ++ ws)
  | .opt o :: rest =>
    match msgLoop fname mpos rest with
    | .error e => .error e
    | .ok (hs, s, ws) =>
      .ok (hs, s, diag fname o.position ("unhandled message option " ++ goQuote o.name) :: ws)
  | .other t :: _ =>
    .error (formatErr fname mpos ("unexpected type " ++ t ++ " in message"))

/-- `builder.handleMessage` as a pure core. -/
def handleMessageCore (fname : String) (m : Message) : Except Err (List String × String × List String) :=
  match msgLoop fname m.position m.elements with
  | .error e => .error e
  | .ok (hs, body, ws) =>
    .ok (hs, formatStr 0 m.comment ("type " ++ m.name ++ " struct \x7b\n") ++ body ++ "\x7d", ws)

/-- The loop over the `OrderedMap` of a routing option: a `body` key sets the
body selector, any other key becomes the method with its literal as the
url; the last non-`body` key wins. -/
def extractHttpMap : String → String → String → List NamedLiteral → Except String (String × String × String)
  | method, url, body, [] => .ok (method, url, body)
  | method, url, body, l :: rest =>
    if l.name = "body" then
      match handleLiteralString l.literal with
      | .error _ => .error "option for body should be a string"
      | .ok s => extractHttpMap method url s rest
    else
      match handleLiteralString l.literal with
      | .error _ => .error ("option for " ++ goQuote l.name ++ " should be a string (url)")
      | .ok s => extractHttpMap l.name s body rest

/-- The `// +gunk http.Match` annotation block emitted above a method:
verb upper-cased, path quoted, `Body` line only when a body was present. -/
def httpMatchBlock (method url body : String) : String :=
  "\t// +gunk http.Match\x7b\n"
  ++ "\t//     Method: " ++ goQuote (strToUpper method) ++ ",\n"
  ++ "\t//     Path: " ++ goQuote url ++ ",\n"
  ++ (if body ≠ "" then "\t//     Body: " ++ goQuote body ++ ",\n" else "")
  ++ "\t// \x7d\n"

/-- The import marked as required when an http annotation is emitted. -/
def httpImportPath : String := "github.com/gunk/opt/http"

/-- The comment emitted (with a trailing `//` line) above the first
annotation block, consuming the method comment. -/
def commentPrefix (c : Option Comment) : String :=
  match c with
  | some cm => formatStr 1 (some cm) "//\n"
  | none => ""

/-- The loop of `handleService` over the elements of one RPC: only options are
valid; a `(google.api.http)` option with a verb and a non-empty url emits
the annotation block (consuming the method comment) and marks the http-
annotation import as used; other options only warn. -/
def rpcOptLoop (fname : String) (rpos : Position) : Option Comment → List RPCElem → Except Err (String × Option Comment × List String × Bool)
  | _, .other t :: _ =>
    .error (formatErr fname rpos ("unexpected type " ++ t ++ " in service rpc, expected option"))
  | c, [] => .ok ("", c, [], false)
  | c, .opt o :: rest =>
    if o.name = "(google.api.http)" then
      if o.constant.orderedMap = [] then
        .error (formatErr fname o.position "expected option to be a map")
      else
        match extractHttpMap "" "" "" o.constant.orderedMap with
        | .error msg => .error (formatErr fname o.position msg)
        | .ok (method, url, body) =>
          if method ≠ "" ∧ url ≠ "" then
            match rpcOptLoop fname rpos none rest with
            | .error e => .error e
            | .ok (s, c2, ws, _) =>
              .ok (commentPrefix c ++ httpMatchBlock method url body ++ s, c2, ws, true)
          else
            rpcOptLoop fname rpos c rest
    else
      match rpcOptLoop fname rpos c rest with
      | .error e => .error e
      | .ok (s, c2, ws, used) =>
        .ok (s, c2, diag fname o.position ("unhandled method option " ++ goQuote o.name) :: ws, used)

/-- The well-known empty request/response marker. -/
def emptyMarker : String := "google.protobuf.Empty"

/-- Translation of a single RPC inside `handleService` (without the
blank-line separator): annotation blocks, then the method signature. -/
def handleServiceRPCCore (fname : String) (r : RPC) : Except Err (String × List String × Bool) :=
  match rpcOptLoop fname r.position r.comment r.elements with
  | .error e => .error e
  | .ok (ann, comment, ws, used) =>
    let requestType := if r.requestType = emptyMarker then "" else r.requestType
    let returnsType := if r.returnsType = emptyMarker then "" else r.returnsType
    .ok (ann ++ formatStr 1 comment (r.name ++ "(" ++ requestType ++ ") " ++ returnsType ++ "\n"),
         ws, used)

/-- The loop of `builder.handleService` over the service elements (the
index counts every element, as in the source `for i, e := range`). -/
def serviceLoop (fname : String) (spos : Position) : Nat → List ServiceElem → Except Err (String × List String × Bool)
  | _, [] => .ok ("", [], false)
  | i, .rpc r :: rest =>
    match handleServiceRPCCore fname r with
    | .error e => .error e
    | .ok (rc, ws, used) =>
      let sep := if i ≠ 0 ∧ (r.comment ≠ none ∨ r.elements ≠ []) then "\n" else ""
      match serviceLoop fname spos (i + 1) rest with
      | .error e => .error e
      | .ok (s, ws2, u2) => .ok (sep ++ rc ++ s, ws ++ ws2, used || u2)
  | i, .opt o :: rest =>
    match serviceLoop fname spos (i + 1) rest with
    | .error e => .error e
    | .ok (s, ws, u) =>
      .ok (s, diag fname o.position ("unhandled service option " ++ goQuote o.name) :: ws, u)
  | _, .other t :: _ =>
    .error (formatErr fname spos ("unexpected type " ++ t ++ " in service, expected rpc"))

/-- `builder.handleService` as a pure core: the interface block, warnings,
and whether the http import was marked. -/
def handleServiceCore (fname : String) (s : Service) : Except Err (String × List String × Bool) :=
  match serviceLoop fname s.position 0 s.elements with
  | .error e => .error e
  | .ok (body, ws, used) =>
    .ok (formatStr 0 s.comment ("type " ++ s.name ++ " interface \x7b\n") ++ body ++ "\x7d",
         ws, used)

/-- `builder.genAnnotation`: a bare `Name(value)` fragment. -/
def genAnn (name value : String) : String := name ++ "(" ++ value ++ ")"

/-- `builder.genAnnotationString`: a `Name("value")` fragment. -/
def genAnnString (name value : String) : String := name ++ "(" ++ goQuote value ++ ")"

/-- Drop everything up to and including the last `/` (accumulator holds the
current component reversed). -/
def lastComponentAux : List Char → List Char → List Char
  | [], acc => acc.reverse
  | '/' :: rest, _acc => lastComponentAux rest []
  | c :: rest, acc => lastComponentAux rest (c :: acc)

/-- `filepath.Base` restricted to the slash-separated import paths used here. -/
def lastComponent (s : String) : String :=
  String.mk (lastComponentAux s.data [])

/-- The switch of `builder.handlePackage` over a recognised file-option
name (other than `go_package`): the import to mark and the annotation value.
For `swift_prefix` the source never assigns `value`, so it stays empty. -/
def fileOptionTable (n val : String) : Option (String × String) :=
  if n = "deprecated" then some ("github.com/gunk/opt/file", genAnn "Deprecated" val)
  else if n = "optimize_for" then some ("github.com/gunk/opt/file", genAnn "OptimizeFor" val)
  else if n = "java_package" then some ("github.com/gunk/opt/file/java", genAnnString "Package" val)
  else if n = "java_outer_classname" then some ("github.com/gunk/opt/file/java", genAnnString "OuterClassname" val)
  else if n = "java_multiple_files" then some ("github.com/gunk/opt/file/java", genAnn "MultipleFiles" val)
  else if n = "java_string_check_utf8" then some ("github.com/gunk/opt/file/java", genAnn "StringCheckUtf8" val)
  else if n = "java_generic_services" then some ("github.com/gunk/opt/file/java", genAnn "GenericServices" val)
  else if n = "swift_prefix" then some ("github.com/gunk/opt/file/swift", "")
  else if n = "csharp_namespace" then some ("github.com/gunk/opt/file/csharp", genAnnString "Namespace" val)
  else if n = "objc_class_prefix" then some ("github.com/gunk/opt/file/objc", genAnnString "ClassPrefix" val)
  else if n = "php_generic_services" then some ("github.com/gunk/opt/file/php", genAnn "GenericServices" val)
  else if n = "cc_generic_services" then some ("github.com/gunk/opt/file/cc", genAnn "GenericServices" val)
  else if n = "cc_enable_arenas" then some ("github.com/gunk/opt/file/cc", genAnn "EnableArenas" val)
  else none

/-- The loop of `builder.handlePackage` over the collected file options:
the retained `go_package` option (the last one wins), the annotation
fragments and the imports marked, or a fatal error on any unrecognised
option name. -/
def pkgOptLoop (fname : String) : List ProtoOption → Except Err (Option ProtoOption × List String × List String)
  | [] => .ok (none, [], [])
  | o :: rest =>
    if o.name = "go_package" then
      match pkgOptLoop fname rest with
      | .error e => .error e
      | .ok (optGo, anns, imps) => .ok (some (optGo.getD o), anns, imps)
    else
      match fileOptionTable o.name o.constant.source with
      | none =>
        .error (formatErr fname o.position (goQuote o.name ++ " is an unhandled proto file option"))
      | some (impt, value) =>
        match pkgOptLoop fname rest with
        | .error e => .error e
        | .ok (optGo, anns, imps) =>
          .ok (optGo, (lastComponent impt ++ "." ++ value) :: anns, impt :: imps)

/-- `builder.handlePackage` as a pure core: the package text (annotations,
comments, package line, `// proto` trailer) and the imports marked. The Go
source dereferences a nil package pointer when no package was declared;
this is modelled as a plain error. -/
def handlePackageCore (fname : String) (pkg : Option ProtoPackage) (pkgOpts : List ProtoOption) : Except Err (String × List String) :=
  match pkgOptLoop fname pkgOpts with
  | .error e => .error e
  | .ok (opt, anns, imps) =>
    match pkg with
    | none => .error (.plain "nil package dereference")
    | some p =>
      let pre := strConcat (anns.map (fun ga => "// +gunk " ++ ga ++ "\n"))
      let optComment :=
        match opt with
        | some o => formatStr 0 o.comment ""
        | none => ""
      let tail :=
        match opt with
        | some o => if o.constant.source ≠ "" then " // proto " ++ o.constant.source else ""
        | none => ""
      .ok (pre ++ formatStr 0 p.comment "" ++ optComment ++ "package " ++ p.name ++ tail, imps)

/-- `builder.handleMessage`: run the core and append the hoisted nested
enum blocks followed by the block of the message itself. -/
def handleMessage (b : Builder) (m : Message) : Except Err Builder :=
  match handleMessageCore b.filename m with
  | .error e => .error e
  | .ok (hoisted, chunk, ws) =>
    .ok { b with translatedDeclarations := b.translatedDeclarations ++ hoisted ++ [chunk],
                 stderr := b.stderr ++ ws }

/-- `builder.handleEnum`: run the core and append the const block. -/
def handleEnum (b : Builder) (e : Enum) : Except Err Builder :=
  match handleEnumCore b.filename e with
  | .error err => .error err
  | .ok (blk, ws) =>
    .ok { b with translatedDeclarations := b.translatedDeclarations ++ [blk],
                 stderr := b.stderr ++ ws }

/-- `builder.handleService`: run the core, append the interface block and
mark the http import when an annotation was emitted. -/
def handleService (b : Builder) (s : Service) : Except Err Builder :=
  match handleServiceCore b.filename s with
  | .error e => .error e
  | .ok (chunk, ws, used) =>
    .ok { b with translatedDeclarations := b.translatedDeclarations ++ [chunk],
                 stderr := b.stderr ++ ws,
                 importsUsed := if used then setInsert b.importsUsed httpImportPath
                                else b.importsUsed }

/-- `builder.handleProtoType`: dispatch one top-level declaration. -/
def handleProtoType (b : Builder) : TopElem → Except Err Builder
  | .syn => .ok b
  | .pkg p => .ok { b with pkg := some p }
  | .imp i => .ok { b with imports := b.imports ++ [i] }
  | .message m => handleMessage b m
  | .enum e => handleEnum b e
  | .service s => handleService b s
  | .opt o => .ok { b with pkgOpts := b.pkgOpts ++ [o] }
  | .other t => .error (.plain ("unhandled proto type " ++ t))

/-- The loop of `convertFile` over the elements of the parsed document. -/
def processElems (b : Builder) : List TopElem → Except Err Builder
  | [] => .ok b
  | e :: rest =>
    match handleProtoType b e with
    | .error err => .error err
    | .ok b2 => processElems b2 rest

/-- `builder.handlePackage` wrapper on the builder state. -/
def handlePackage (b : Builder) : Except Err (String × Builder) :=
  match handlePackageCore b.filename b.pkg b.pkgOpts with
  | .error e => .error e
  | .ok (s, imps) => .ok (s, { b with importsUsed := imps.foldl setInsert b.importsUsed })

/-- `builder.handleImports`: the import block (used annotation imports
become import lines, original proto imports become comments), empty when
there is nothing to emit. -/
def handleImports (b : Builder) : String :=
  if b.importsUsed = [] ∧ b.imports = [] then ""
  else
    "import ("
    ++ strConcat (b.importsUsed.map (fun i => "\n\t" ++ goQuote i))
    ++ strConcat (b.imports.map (fun i => "\n\t// " ++ goQuote i.filename))
    ++ "\n)"

/-- The auto-increment criterion of the spec: the integer of every enum value
equals its zero-based position in the element list of the enum. -/
def specAutoIncrement (elems : List EnumElem) : Prop :=
  ∀ i ef, elems.get? i = some (.field ef) → ef.integer = (i : Int)

/-- The claim description of one emitted enum value: under auto-increment
the first element carries the iota seed and later values are bare names;
under the explicit strategy every value is `Name Type = <integer>`. -/
def claimEnumValueLine (ename : String) (iota isFirst : Bool) (ef : EnumField) : String :=
  if iota then
    if isFirst then formatStr 1 ef.comment (ef.name ++ " " ++ ename ++ " = iota\n")
    else formatStr 1 ef.comment (ef.name ++ "\n")
  else formatStr 1 ef.comment (ef.name ++ " " ++ ename ++ " = " ++ toString ef.integer ++ "\n")

/-- The claim description of the whole const-block body. -/
def claimEnumBody (ename : String) (iota : Bool) : Nat → List EnumElem → String
  | _, [] => ""
  | i, .field ef :: rest => claimEnumValueLine ename iota (i = 0) ef ++ claimEnumBody ename iota (i + 1) rest
  | i, .opt _ :: rest => claimEnumBody ename iota (i + 1) rest
  | i, .other _ :: rest => claimEnumBody ename iota (i + 1) rest

/-- The block a nested enum contributes to the top-level declaration list
(nothing if its translation fails, since that error is discarded). -/
def enumHoistBlock (fname : String) (en : Enum) : List String :=
  match handleEnumCore fname en with
  | .ok (blk, _) => [blk]
  | .error _ => []

/-- The nested-enum blocks hoisted out of a message, in encounter order. -/
def nestedEnumBlocks (fname : String) : List MsgElem → List String
  | [] => []
  | .enum en :: rest => enumHoistBlock fname en ++ nestedEnumBlocks fname rest
  | .normalField _ :: rest => nestedEnumBlocks fname rest
  | .comment _ :: rest => nestedEnumBlocks fname rest
  | .mapField _ :: rest => nestedEnumBlocks fname rest
  | .opt _ :: rest => nestedEnumBlocks fname rest
  | .other _ :: rest => nestedEnumBlocks fname rest

/-- The declaration blocks one top-level element contributes. -/
def topElemBlocks (fname : String) : TopElem → List String
  | .message m =>
    match handleMessageCore fname m with
    | .ok (hs, chunk, _) => hs ++ [chunk]
    | .error _ => []
  | .enum e =>
    match handleEnumCore fname e with
    | .ok (blk, _) => [blk]
    | .error _ => []
  | .service s =>
    match handleServiceCore fname s with
    | .ok (chunk, _, _) => [chunk]
    | .error _ => []
  | _ => []

/-- The declaration blocks of a whole document, in order. -/
def docBlocks (fname : String) : List TopElem → List String
  | [] => []
  | e :: rest => topElemBlocks fname e ++ docBlocks fname rest

/-- `p` occurs as a contiguous substring of `s`. -/
def occursIn (p s : String) : Prop := ∃ a b : String, s = a ++ p ++ b

/-- Sample enum with values 0,1,2 (the `Status` enum of the testdata). -/
def sampleStatusEnum : Enum :=
  { name := "Status", elements := [
      .field { name := "Unknown", integer := 0 },
      .field { name := "Error", integer := 1 },
      .field { name := "OK", integer := 2 }] }

/-- The block `sampleStatusEnum` translates to. -/
def sampleStatusBlock : String :=
  match handleEnumCore "echo.proto" sampleStatusEnum with
  | .ok (blk, _) => blk
  | .error _ => ""

/-- A file option outside the recognised vocabulary. -/
def badFileOpt : ProtoOption :=
  { name := "totally_custom_option",
    constant := { isString := true, source := "x", orderedMap := [] },
    position := ⟨7, 1⟩ }

/-- An option attached to a message field (always unrecognised). -/
def c4fieldOpt : ProtoOption :=
  { name := "deprecated",
    constant := { isString := false, source := "true", orderedMap := [] },
    position := ⟨12, 5⟩ }

/-- A message field carrying an option. -/
def c4field : NormalField :=
  { name := "old_field", type := "int32", sequence := 2, repeated := false,
    options := [c4fieldOpt] }

/-- A message containing `c4field`. -/
def c4msg : Message :=
  { name := "CheckStatusResponse", elements := [.normalField c4field], position := ⟨10, 1⟩ }

/-- The builder after translating `c4msg` from a fresh state. -/
def c4res : Builder :=
  match handleMessage (initBuilder "echo.proto") c4msg with
  | .ok b => b
  | .error _ => initBuilder ""

/-- An enum containing an element kind that is invalid inside an enum. -/
def c6badEnum : Enum :=
  { name := "Nested",
    elements := [.field { name := "A", integer := 0 }, .other "*proto.Message"],
    position := ⟨20, 2⟩ }

/-- A message whose only element is the invalid nested enum. -/
def c6msg : Message :=
  { name := "Outer", elements := [.enum c6badEnum], position := ⟨19, 1⟩ }

/-- A message directly containing an invalid element kind. -/
def c6badMsg : Message :=
  { name := "Bad", elements := [.other "*proto.Service"], position := ⟨30, 1⟩ }

/-- A service directly containing an invalid element kind. -/
def c6badSvc : Service :=
  { name := "S", elements := [.other "*proto.Message"], position := ⟨40, 1⟩ }

/-- An enum nested inside `c9msgNested`. -/
def c9nestedEnum : Enum :=
  { name := "Inner", elements := [.field { name := "A", integer := 0 }] }

/-- A message with a nested enum followed by a field. -/
def c9msgNested : Message :=
  { name := "WithEnum",
    elements := [.enum c9nestedEnum,
      .normalField { name := "x", type := "int32", sequence := 1, repeated := false }] }

/-- A two-declaration document: the message (with nested enum) then an enum. -/
def c9elems : List TopElem := [.message c9msgNested, .enum sampleStatusEnum]

/-- The builder after processing `c9elems` from a fresh state. -/
def c9res : Builder :=
  match processElems (initBuilder "echo.proto") c9elems with
  | .ok b => b
  | .error _ => initBuilder ""

/-- The core result of translating `c9msgNested`. -/
def c9coreRes : List String × String × List String :=
  match handleMessageCore "echo.proto" c9msgNested with
  | .ok r => r
  | .error _ => ([], "", [])

/-- An http-annotated RPC option (verb `post`, path `/v1/echo`). -/
def c10opt : ProtoOption :=
  { name := "(google.api.http)",
    constant := { isString := false, source := "",
                  orderedMap := [⟨"post", ⟨true, "/v1/echo"⟩⟩] },
    position := ⟨10, 3⟩ }

/-- A service with a single http-annotated RPC. -/
def c10svc : Service :=
  { name := "Util",
    elements := [.rpc { name := "Echo", requestType := "Message",
                        returnsType := "Message", elements := [.opt c10opt] }] }

/-- A document whose options mark the same import twice (two java options)
next to a service marking the http import. -/
def c10elems : List TopElem :=
  [.pkg { name := "util" },
   .opt { name := "java_package",
          constant := { isString := true, source := "com.x", orderedMap := [] },
          position := ⟨2, 1⟩ },
   .opt { name := "java_multiple_files",
          constant := { isString := false, source := "true", orderedMap := [] },
          position := ⟨3, 1⟩ },
   .service c10svc]

/-- The builder after processing `c10elems` from a fresh state. -/
def c10b1 : Builder :=
  match processElems (initBuilder "echo.proto") c10elems with
  | .ok b => b
  | .error _ => initBuilder ""

/-- The package text produced for `c10elems`. -/
def c10s : String :=
  match handlePackage c10b1 with
  | .ok (s, _) => s
  | .error _ => ""

/-- The builder after also translating the package of `c10elems`. -/
def c10b2 : Builder :=
  match handlePackage c10b1 with
  | .ok (_, b) => b
  | .error _ => initBuilder ""

/-- An http routing option with verb `get`, path `/v1/echo`, no body. -/
def c1opt : ProtoOption :=
  { name := "(google.api.http)",
    constant := { isString := false, source := "",
                  orderedMap := [⟨"get", ⟨true, "/v1/echo"⟩⟩] },
    position := ⟨20, 3⟩ }

/-- An RPC carrying `c1opt`. -/
def c1rpc : RPC :=
  { name := "CheckStatus", requestType := "google.protobuf.Empty",
    returnsType := "CheckStatusResponse", elements := [.opt c1opt] }

/-- A service containing `c1rpc`. -/
def c1svc : Service := { name := "Util", elements := [.rpc c1rpc] }

/-- The builder after translating `c1svc` from a fresh state. -/
def c1res : Builder :=
  match handleService (initBuilder "echo.proto") c1svc with
  | .ok b => b
  | .error _ => initBuilder ""

end Gunk

namespace Gunk

/-- Claim C8: the Type Mapper `goType` is a total function: each of the 15
fixed scalar names maps to exactly one fixed target token (bool, string,
[]byte, float64, float32, int, int32, int32, int64, int64, int64, uint32,
uint32, uint64, uint64 respectively), and every name outside that set maps
to itself, with no error path. -/
theorem c8_goType_total :
    (goType "bool" = "bool" ∧ goType "string" = "string" ∧ goType "bytes" = "[]byte" ∧
     goType "double" = "float64" ∧ goType "float" = "float32" ∧ goType "int32" = "int" ∧
     goType "sint32" = "int32" ∧ goType "sfixed32" = "int32" ∧ goType "int64" = "int64" ∧
     goType "sint64" = "int64" ∧ goType "sfixed64" = "int64" ∧ goType "uint32" = "uint32" ∧
     goType "fixed32" = "uint32" ∧ goType "uint64" = "uint64" ∧ goType "fixed64" = "uint64") ∧
    ∀ s : String, s ∉ protoScalars → goType s = s := by
  refine ⟨by repeat' constructor, ?_⟩
  intro s hs
  simp only [protoScalars, List.mem_cons, List.not_mem_nil, or_false, not_or] at hs
  obtain ⟨h1, h2, h3, h4, h5, h6, h7, h8, h9, h10, h11, h12, h13, h14, h15⟩ := hs
  simp only [goType, if_neg h1, if_neg h2, if_neg h3, if_neg h4, if_neg h5, if_neg h6,
    if_neg h7, if_neg h8, if_neg h9, if_neg h10, if_neg h11, if_neg h12, if_neg h13,
    if_neg h14, if_neg h15]

/-- Witness for C8: the custom type name `MyType` is outside the scalar
vocabulary and is passed through unchanged. -/
theorem c8_goType_total_witness : goType "MyType" = "MyType" :=
  c8_goType_total.2 "MyType" (by decide)

theorem occursIn_rfl (p : String) : occursIn p p :=
  ⟨"", "", by simp⟩

theorem occursIn_append_right {p s : String} (t : String) (h : occursIn p s) :
    occursIn p (s ++ t) := by
  obtain ⟨a, b, rfl⟩ := h
  exact ⟨a, b ++ t, by simp [String.append_assoc]⟩

theorem occursIn_append_left {p s : String} (t : String) (h : occursIn p s) :
    occursIn p (t ++ s) := by
  obtain ⟨a, b, rfl⟩ := h
  exact ⟨t ++ a, b, by simp [String.append_assoc]⟩

/-- Step equation of `rpcOptLoop` on the empty element list. -/
theorem rpcOptLoop_nil (fname : String) (rpos : Position) (c : Option Comment) :
    rpcOptLoop fname rpos c [] = .ok ("", c, [], false) :=
  rfl

/-- Step equation of `rpcOptLoop` on an invalid element. -/
theorem rpcOptLoop_cons_other (fname : String) (rpos : Position) (c : Option Comment)
    (t : String) (rest : List RPCElem) :
    rpcOptLoop fname rpos c (.other t :: rest)
      = .error (formatErr fname rpos ("unexpected type " ++ t ++ " in service rpc, expected option")) :=
  rfl

/-- Step equation of `rpcOptLoop` on an option element. -/
theorem rpcOptLoop_cons_opt (fname : String) (rpos : Position) (c : Option Comment)
    (o : ProtoOption) (rest : List RPCElem) :
    rpcOptLoop fname rpos c (.opt o :: rest)
      = if o.name = "(google.api.http)" then
          if o.constant.orderedMap = [] then
            .error (formatErr fname o.position "expected option to be a map")
          else
            match extractHttpMap "" "" "" o.constant.orderedMap with
            | .error msg => .error (formatErr fname o.position msg)
            | .ok (method, url, body) =>
              if method ≠ "" ∧ url ≠ "" then
                match rpcOptLoop fname rpos none rest with
                | .error e => .error e
                | .ok (s, c2, ws, _) =>
                  .ok (commentPrefix c ++ httpMatchBlock method url body ++ s, c2, ws, true)
              else rpcOptLoop fname rpos c rest
        else
          match rpcOptLoop fname rpos c rest with
          | .error e => .error e
          | .ok (s, c2, ws, used) =>
            .ok (s, c2, diag fname o.position ("unhandled method option " ++ goQuote o.name) :: ws, used) :=
  rfl


/-- Claim C7: the emitted type token of a repeated plain field is the
sequence-wrapped form `[]T` of the Type-Mapper image of its declared type;
the emitted type token of a map field is `map[K]V` with key and value types
mapped independently, never sequence-wrapped (map fields carry no repeated
flag in the AST). -/
theorem c7_field_type_tokens (fname : String) (nf : NormalField) (mf : MapField) :
    (nf.repeated = true →
      (handleMessageFieldCore fname (.normal nf)).1
        = formatStr 1 nf.comment
            (forceCamelIdentifier nf.name ++ " " ++ ("[]" ++ goType nf.type))
          ++ " `pb:\"" ++ toString nf.sequence ++ "\" json:\"" ++ camelToSnake nf.name ++ "\"`\n")
    ∧ (handleMessageFieldCore fname (.mapF mf)).1
        = formatStr 1 mf.comment
            (forceCamelIdentifier mf.name ++ " "
              ++ ("map[" ++ goType mf.keyType ++ "]" ++ goType mf.type))
          ++ " `pb:\"" ++ toString mf.sequence ++ "\" json:\"" ++ camelToSnake mf.name ++ "\"`\n" := by
  constructor
  · intro h
    simp [handleMessageFieldCore, h]
  · simp [handleMessageFieldCore]

/-- Witness for C7: a repeated `string` field renders as `[]string`, and an
`int64`-keyed map field renders as `map[int64]string`. -/
theorem c7_field_type_tokens_witness :
    (handleMessageFieldCore "echo.proto"
        (.normal { name := "names", type := "string", sequence := 3, repeated := true })).1
      = "\tNames []string `pb:\"3\" json:\"names\"`\n"
    ∧ (handleMessageFieldCore "echo.proto"
        (.mapF { name := "labels", type := "string", keyType := "int64", sequence := 4 })).1
      = "\tLabels map[int64]string `pb:\"4\" json:\"labels\"`\n" := by
  constructor
  · rw [(c7_field_type_tokens "echo.proto"
      { name := "names", type := "string", sequence := 3, repeated := true }
      { name := "labels", type := "string", keyType := "int64", sequence := 4 }).1 rfl]
    rfl
  · rw [(c7_field_type_tokens "echo.proto"
      { name := "names", type := "string", sequence := 3, repeated := true }
      { name := "labels", type := "string", keyType := "int64", sequence := 4 }).2]
    rfl

/-- Claim C3 (code bug, failing input): for the recognised file option
`swift_prefix` the source marks the swift import but never assigns the
annotation value, so the emitted fragment is the malformed `swift.` with no
`Prefix("...")` call — the option value `FOO` is dropped entirely. -/
theorem c3_swift_value_dropped :
    handlePackageCore "echo.proto" (some { name := "util" })
        [{ name := "swift_prefix",
           constant := { isString := true, source := "FOO", orderedMap := [] },
           position := ⟨3, 1⟩ }]
      = .ok ("// +gunk swift.\npackage util", ["github.com/gunk/opt/file/swift"]) := by
  rfl

theorem handleLiteralString_ok {lit : LiteralLite} {s : String}
    (h : handleLiteralString lit = .ok s) : s = lit.source := by
  unfold handleLiteralString at h
  by_cases hs : lit.isString <;> simp [hs] at h
  exact h.symm

/-- If the ordered map has no non-`body` entry, the initial method and url
survive the loop. -/
theorem extractHttpMap_no_verb (L : List NamedLiteral) :
    ∀ m u b res, L.filter (fun l => l.name != "body") = [] →
      extractHttpMap m u b L = .ok res → res.1 = m ∧ res.2.1 = u := by
  induction L with
  | nil =>
    intro m u b res _ h
    simp [extractHttpMap] at h
    simp [← h]
  | cons l rest ih =>
    intro m u b res hf h
    rw [List.filter_cons] at hf
    by_cases hb : l.name = "body"
    · rw [if_neg (by simp [hb])] at hf
      rw [extractHttpMap, if_pos hb] at h
      cases hls : handleLiteralString l.literal with
      | error e => rw [hls] at h; exact absurd h (by simp)
      | ok s =>
        rw [hls] at h
        exact ih m u s res hf h
    · rw [if_pos (by simp [hb])] at hf
      exact absurd hf (by simp)

/-- The verb/url returned by the ordered-map loop are the name and literal
source of the last non-`body` entry. -/
theorem extractHttpMap_last_verb (L : List NamedLiteral) :
    ∀ m u b res lst, extractHttpMap m u b L = .ok res →
      (L.filter (fun l => l.name != "body")).getLast? = some lst →
      res.1 = lst.name ∧ res.2.1 = lst.literal.source := by
  induction L with
  | nil =>
    intro m u b res lst _ hlast
    simp at hlast
  | cons l rest ih =>
    intro m u b res lst h hlast
    rw [List.filter_cons] at hlast
    by_cases hb : l.name = "body"
    · rw [if_neg (by simp [hb])] at hlast
      rw [extractHttpMap, if_pos hb] at h
      cases hls : handleLiteralString l.literal with
      | error e => rw [hls] at h; exact absurd h (by simp)
      | ok s =>
        rw [hls] at h
        exact ih m u s res lst h hlast
    · rw [if_pos (by simp [hb])] at hlast
      rw [extractHttpMap, if_neg hb] at h
      cases hls : handleLiteralString l.literal with
      | error e => rw [hls] at h; exact absurd h (by simp)
      | ok s =>
        rw [hls] at h
        have hsrc : s = l.literal.source := handleLiteralString_ok hls
        cases hf : rest.filter (fun l => l.name != "body") with
        | nil =>
          rw [hf, List.getLast?_singleton] at hlast
          obtain rfl : l = lst := by simpa using hlast
          have := extractHttpMap_no_verb rest l.name s b res hf h
          exact ⟨this.1, this.2.trans hsrc⟩
        | cons x xs =>
          rw [hf, List.getLast?_cons_cons] at hlast
          rw [← hf] at hlast
          exact ih l.name s b res lst h hlast

/-- Claim C5: when the ordered map of an RPC routing annotation contains more
than one key other than `body`, the last such key encountered wins as the
HTTP verb, with its literal as the path; the loop still succeeds, with no
validation that only one verb key exists. -/
theorem c5_last_verb_wins (L : List NamedLiteral) (res : String × String × String)
    (hok : extractHttpMap "" "" "" L = .ok res)
    (_h2 : 2 ≤ (L.filter (fun l => l.name != "body")).length)
    (lst : NamedLiteral)
    (hlast : (L.filter (fun l => l.name != "body")).getLast? = some lst) :
    res.1 = lst.name ∧ res.2.1 = lst.literal.source :=
  extractHttpMap_last_verb L "" "" "" res lst hok hlast

/-- The boolean of the first enum loop equals "the integer of every enum value is its
zero-based position in the element list" (positions shifted by the start
index). -/
theorem enumScan_iff (elems : List EnumElem) :
    ∀ fname epos i dec ws, enumScan fname epos i elems = .ok (dec, ws) →
      (dec = true ↔
        ∀ j ef, elems.get? j = some (.field ef) → ef.integer = ((i + j : Nat) : Int)) := by
  induction elems with
  | nil =>
    intro fname epos i dec ws h
    simp [enumScan] at h
    simp [← h.1]
  | cons e rest ih =>
    intro fname epos i dec ws h
    cases e with
    | field ef =>
      rw [enumScan] at h
      cases hrec : enumScan fname epos (i + 1) rest with
      | error err => rw [hrec] at h; exact absurd h (by simp)
      | ok p =>
        obtain ⟨dec', ws'⟩ := p
        rw [hrec] at h
        simp only [Except.ok.injEq, Prod.mk.injEq] at h
        obtain ⟨hd, _⟩ := h
        have hiff := ih fname epos (i + 1) dec' ws' hrec
        rw [← hd, Bool.and_eq_true, decide_eq_true_eq]
        constructor
        · rintro ⟨h1, h2⟩ j ef' hj
          cases j with
          | zero =>
            simp at hj
            subst hj
            simpa using h1.symm
          | succ j =>
            rw [List.get?_cons_succ] at hj
            have := (hiff.mp h2) j ef' hj
            rw [this]
            push_cast
            ring
        · intro hall
          refine ⟨?_, hiff.mpr ?_⟩
          · have := hall 0 ef (by simp)
            simpa using this.symm
          · intro j ef' hj
            have := hall (j + 1) ef' (by simpa using hj)
            rw [this]
            push_cast
            ring
    | opt o =>
      rw [enumScan] at h
      cases hrec : enumScan fname epos (i + 1) rest with
      | error err => rw [hrec] at h; exact absurd h (by simp)
      | ok p =>
        obtain ⟨dec', ws'⟩ := p
        rw [hrec] at h
        simp only [Except.ok.injEq, Prod.mk.injEq] at h
        obtain ⟨hd, _⟩ := h
        have hiff := ih fname epos (i + 1) dec' ws' hrec
        rw [← hd, hiff]
        constructor
        · intro hall j ef' hj
          cases j with
          | zero => simp at hj
          | succ j =>
            rw [List.get?_cons_succ] at hj
            have := hall j ef' hj
            rw [this]
            push_cast
            ring
        · intro hall j ef' hj
          have := hall (j + 1) ef' (by simpa using hj)
          rw [this]
          push_cast
          ring
    | other t =>
      rw [enumScan] at h
      exact absurd h (by simp)

/-- The emission loop produces exactly the claim-side const-block body. -/
theorem enumEmit_eq_claimBody (elems : List EnumElem) :
    ∀ fname ename iota i,
      (enumEmit fname ename iota i elems).1 = claimEnumBody ename iota i elems := by
  induction elems with
  | nil => intro fname ename iota i; rfl
  | cons e rest ih =>
    intro fname ename iota i
    cases e with
    | field ef =>
      rw [enumEmit, claimEnumBody]
      cases iota with
      | false => simp [claimEnumValueLine, ih]
      | true =>
        by_cases hi : i = 0 <;> simp [claimEnumValueLine, hi, ih]
    | opt o => rw [enumEmit, claimEnumBody]; exact ih fname ename iota (i + 1)
    | other t => rw [enumEmit, claimEnumBody]; exact ih fname ename iota (i + 1)

/-- Claim C2: the translator selects the iota strategy iff the integer of every enum
value equals its zero-based position in the element list, and the
emitted block renders every value as `Name Type = <integer>` under the
explicit strategy, while under iota only the first element carries the
`= iota` seed and subsequent values are bare names (`claimEnumBody`). -/
theorem c2_enum_strategy (fname : String) (e : Enum) (blk : String) (ws : List String)
    (dec : Bool) (ws1 : List String)
    (hscan : enumScan fname e.position 0 e.elements = .ok (dec, ws1))
    (hcore : handleEnumCore fname e = .ok (blk, ws)) :
    (dec = true ↔ specAutoIncrement e.elements) ∧
    blk = formatStr 0 e.comment ("type " ++ e.name ++ " int\n")
          ++ "\nconst (\n" ++ claimEnumBody e.name dec 0 e.elements ++ ")" := by
  constructor
  · have := enumScan_iff e.elements fname e.position 0 dec ws1 hscan
    simpa [specAutoIncrement] using this
  · have hcore2 : handleEnumCore fname e
        = .ok (formatStr 0 e.comment ("type " ++ e.name ++ " int\n")
               ++ "\nconst (\n" ++ (enumEmit fname e.name dec 0 e.elements).1 ++ ")",
               ws1 ++ (enumEmit fname e.name dec 0 e.elements).2) := by
      rw [handleEnumCore, hscan]
    have := hcore.symm.trans hcore2
    simp only [Except.ok.injEq, Prod.mk.injEq] at this
    rw [this.1, enumEmit_eq_claimBody]

/-- Witness for C2: the `Status` enum with values 0,1,2 selects iota and
renders with a single seed line. -/
theorem c2_enum_strategy_witness :
    (true = true ↔ specAutoIncrement sampleStatusEnum.elements) ∧
    sampleStatusBlock
      = formatStr 0 sampleStatusEnum.comment ("type " ++ sampleStatusEnum.name ++ " int\n")
        ++ "\nconst (\n" ++ claimEnumBody sampleStatusEnum.name true 0 sampleStatusEnum.elements ++ ")" :=
  c2_enum_strategy "echo.proto" sampleStatusEnum sampleStatusBlock [] true [] rfl rfl

/-- An unrecognised file option makes the package-option loop fail with the
position of the offending option. -/
theorem pkgOptLoop_unrecognized (opts : List ProtoOption) :
    ∀ fname o, o ∈ opts → o.name ≠ "go_package" →
      fileOptionTable o.name o.constant.source = none →
      ∃ o', o' ∈ opts ∧ o'.name ≠ "go_package" ∧
        fileOptionTable o'.name o'.constant.source = none ∧
        pkgOptLoop fname opts
          = .error (formatErr fname o'.position
              (goQuote o'.name ++ " is an unhandled proto file option")) := by
  induction opts with
  | nil => intro fname o hmem _ _; exact absurd hmem (List.not_mem_nil o)
  | cons p rest ih =>
    intro fname o hmem hgo htab
    by_cases hp : p.name = "go_package"
    · have homem : o ∈ rest := by
        rcases List.mem_cons.mp hmem with rfl | h
        · exact absurd hp hgo
        · exact h
      obtain ⟨o', ho1, ho2, ho3, herr⟩ := ih fname o homem hgo htab
      refine ⟨o', List.mem_cons_of_mem p ho1, ho2, ho3, ?_⟩
      rw [pkgOptLoop, if_pos hp, herr]
    · cases htabp : fileOptionTable p.name p.constant.source with
      | none =>
        refine ⟨p, List.mem_cons_self p rest, hp, htabp, ?_⟩
        rw [pkgOptLoop, if_neg hp, htabp]
      | some pr =>
        obtain ⟨impt, value⟩ := pr
        have homem : o ∈ rest := by
          rcases List.mem_cons.mp hmem with rfl | h
          · rw [htab] at htabp; exact absurd htabp (by simp)
          · exact h
        obtain ⟨o', ho1, ho2, ho3, herr⟩ := ih fname o homem hgo htab
        refine ⟨o', List.mem_cons_of_mem p ho1, ho2, ho3, ?_⟩
        rw [pkgOptLoop, if_neg hp, htabp, herr]

/-- Inside a message, the option warnings of a field reach the warning list and
the translated line of the field occurs in the struct body. -/
theorem msgLoop_field (elems : List MsgElem) :
    ∀ fname mpos hs s ws nf, msgLoop fname mpos elems = .ok (hs, s, ws) →
      MsgElem.normalField nf ∈ elems →
      ((∀ o, o ∈ nf.options →
          diag fname o.position ("unhandled field option " ++ goQuote o.name) ∈ ws)
        ∧ occursIn (handleMessageFieldCore fname (.normal nf)).1 s) := by
  induction elems with
  | nil => intro fname mpos hs s ws nf _ hmem; exact absurd hmem (List.not_mem_nil _)
  | cons e rest ih =>
    intro fname mpos hs s ws nf h hmem
    cases e with
    | normalField f =>
      rw [msgLoop] at h
      cases hrec : msgLoop fname mpos rest with
      | error err => rw [hrec] at h; exact absurd h (by simp)
      | ok tri =>
        obtain ⟨hs', s', ws'⟩ := tri
        rw [hrec] at h
        simp only [Except.ok.injEq, Prod.mk.injEq] at h
        obtain ⟨_, hs2, hw2⟩ := h
        rcases List.mem_cons.mp hmem with heq | hmem'
        · injection heq with hnf
          subst hnf
          constructor
          · intro o ho
            rw [← hw2]
            exact List.mem_append_left _ (List.mem_map_of_mem _ ho)
          · rw [← hs2]
            exact occursIn_append_right s' (occursIn_rfl _)
        · have hrest := ih fname mpos hs' s' ws' nf hrec hmem'
          constructor
          · intro o ho
            rw [← hw2]
            exact List.mem_append_right _ (hrest.1 o ho)
          · rw [← hs2]
            exact occursIn_append_left _ hrest.2
    | enum en =>
      rw [msgLoop] at h
      cases hen : handleEnumCore fname en with
      | ok pr =>
        obtain ⟨blk, ews⟩ := pr
        rw [hen] at h
        cases hrec : msgLoop fname mpos rest with
        | error err => rw [hrec] at h; exact absurd h (by simp)
        | ok tri =>
          obtain ⟨hs', s', ws'⟩ := tri
          rw [hrec] at h
          simp only [Except.ok.injEq, Prod.mk.injEq] at h
          obtain ⟨_, hs2, hw2⟩ := h
          rcases List.mem_cons.mp hmem with heq | hmem'
          · exact absurd heq (by simp)
          · have hrest := ih fname mpos hs' s' ws' nf hrec hmem'
            constructor
            · intro o ho
              rw [← hw2]
              exact List.mem_append_right _ (hrest.1 o ho)
            · rw [← hs2]
              exact hrest.2
      | error err =>
        rw [hen] at h
        rcases List.mem_cons.mp hmem with heq | hmem'
        · exact absurd heq (by simp)
        · exact ih fname mpos hs s ws nf h hmem'
    | comment c =>
      rw [msgLoop] at h
      cases hrec : msgLoop fname mpos rest with
      | error err => rw [hrec] at h; exact absurd h (by simp)
      | ok tri =>
        obtain ⟨hs', s', ws'⟩ := tri
        rw [hrec] at h
        simp only [Except.ok.injEq, Prod.mk.injEq] at h
        obtain ⟨_, hs2, hw2⟩ := h
        rcases List.mem_cons.mp hmem with heq | hmem'
        · exact absurd heq (by simp)
        · have hrest := ih fname mpos hs' s' ws' nf hrec hmem'
          constructor
          · intro o ho
            rw [← hw2]
            exact hrest.1 o ho
          · rw [← hs2]
            exact occursIn_append_left _ hrest.2
    | mapField f =>
      rw [msgLoop] at h
      cases hrec : msgLoop fname mpos rest with
      | error err => rw [hrec] at h; exact absurd h (by simp)
      | ok tri =>
        obtain ⟨hs', s', ws'⟩ := tri
        rw [hrec] at h
        simp only [Except.ok.injEq, Prod.mk.injEq] at h
        obtain ⟨_, hs2, hw2⟩ := h
        rcases List.mem_cons.mp hmem with heq | hmem'
        · exact absurd heq (by simp)
        · have hrest := ih fname mpos hs' s' ws' nf hrec hmem'
          constructor
          · intro o ho
            rw [← hw2]
            exact List.mem_append_right _ (hrest.1 o ho)
          · rw [← hs2]
            exact occursIn_append_left _ hrest.2
    | opt o' =>
      rw [msgLoop] at h
      cases hrec : msgLoop fname mpos rest with
      | error err => rw [hrec] at h; exact absurd h (by simp)
      | ok tri =>
        obtain ⟨hs', s', ws'⟩ := tri
        rw [hrec] at h
        simp only [Except.ok.injEq, Prod.mk.injEq] at h
        obtain ⟨_, hs2, hw2⟩ := h
        rcases List.mem_cons.mp hmem with heq | hmem'
        · exact absurd heq (by simp)
        · have hrest := ih fname mpos hs' s' ws' nf hrec hmem'
          constructor
          · intro o ho
            rw [← hw2]
            exact List.mem_cons_of_mem _ (hrest.1 o ho)
          · rw [← hs2]
            exact hrest.2
    | other t =>
      rw [msgLoop] at h
      exact absurd h (by simp)

/-- Claim C4: an unrecognised file-level option aborts translation with a
fatal error annotated with the position of the offending option, whereas an
unrecognised option on a message field only produces a stderr warning and
the field is still translated and appears in the output. -/
theorem c4_unrecognized_options :
    (∀ (fname : String) (pkg : Option ProtoPackage) (opts : List ProtoOption) (o : ProtoOption),
        o ∈ opts → o.name ≠ "go_package" → fileOptionTable o.name o.constant.source = none →
        ∃ o' msg, o' ∈ opts ∧ o'.name ≠ "go_package" ∧
          fileOptionTable o'.name o'.constant.source = none ∧
          handlePackageCore fname pkg opts = .error (.atPos o'.position msg))
    ∧ (∀ (b : Builder) (m : Message) (nf : NormalField) (o : ProtoOption) (b' : Builder),
        handleMessage b m = .ok b' → MsgElem.normalField nf ∈ m.elements → o ∈ nf.options →
        diag b.filename o.position ("unhandled field option " ++ goQuote o.name) ∈ b'.stderr
        ∧ ∃ c, c ∈ b'.translatedDeclarations
            ∧ occursIn (handleMessageFieldCore b.filename (.normal nf)).1 c) := by
  constructor
  · intro fname pkg opts o hmem hgo htab
    obtain ⟨o', ho1, ho2, ho3, herr⟩ := pkgOptLoop_unrecognized opts fname o hmem hgo htab
    refine ⟨o', fname ++ ":" ++ toString o'.position.line ++ ":" ++ toString o'.position.col
      ++ ": " ++ (goQuote o'.name ++ " is an unhandled proto file option"),
      ho1, ho2, ho3, ?_⟩
    rw [handlePackageCore, herr]
    rfl
  · intro b m nf o b' h hmem ho
    rw [handleMessage] at h
    cases hmc : handleMessageCore b.filename m with
    | error err => rw [hmc] at h; exact absurd h (by simp)
    | ok tri =>
      obtain ⟨hoisted, chunk, ws⟩ := tri
      rw [hmc] at h
      simp only [Except.ok.injEq] at h
      rw [handleMessageCore] at hmc
      cases hml : msgLoop b.filename m.position m.elements with
      | error err => rw [hml] at hmc; exact absurd hmc (by simp)
      | ok tri2 =>
        obtain ⟨hs, body, ws2⟩ := tri2
        rw [hml] at hmc
        simp only [Except.ok.injEq, Prod.mk.injEq] at hmc
        obtain ⟨hh, hc, hw⟩ := hmc
        have hfield := msgLoop_field m.elements b.filename m.position hs body ws2 nf hml hmem
        constructor
        · have : b'.stderr = b.stderr ++ ws := by rw [← h]
          rw [this, ← hw]
          exact List.mem_append_right _ (hfield.1 o ho)
        · refine ⟨chunk, ?_, ?_⟩
          · have : b'.translatedDeclarations
                = b.translatedDeclarations ++ hoisted ++ [chunk] := by rw [← h]
            rw [this]
            exact List.mem_append_right _ (List.mem_singleton.mpr rfl)
          · rw [← hc]
            exact occursIn_append_right _ (occursIn_append_left _ hfield.2)

/-- Witness for C4: the file option `totally_custom_option` aborts the
package translation; the field option on `old_field` only warns and the
field line is still emitted inside the message block. -/
theorem c4_unrecognized_options_witness :
    (∃ o' msg, o' ∈ [badFileOpt] ∧ o'.name ≠ "go_package" ∧
        fileOptionTable o'.name o'.constant.source = none ∧
        handlePackageCore "echo.proto" (some { name := "util" }) [badFileOpt]
          = .error (.atPos o'.position msg))
    ∧ (diag "echo.proto" c4fieldOpt.position
          ("unhandled field option " ++ goQuote c4fieldOpt.name) ∈ c4res.stderr
        ∧ ∃ c, c ∈ c4res.translatedDeclarations
            ∧ occursIn (handleMessageFieldCore "echo.proto" (.normal c4field)).1 c) := by
  constructor
  · exact c4_unrecognized_options.1 "echo.proto" (some { name := "util" }) [badFileOpt]
      badFileOpt (by simp) (by decide) (by rfl)
  · exact c4_unrecognized_options.2 (initBuilder "echo.proto") c4msg c4field c4fieldOpt c4res
      rfl (by simp [c4msg]) (by simp [c4field])

/-- Witness for C5: with verb keys `get` then `post`, `post` wins. -/
theorem c5_last_verb_wins_witness :
    (extractHttpMap "" "" ""
        [⟨"get", ⟨true, "/a"⟩⟩, ⟨"post", ⟨true, "/b"⟩⟩, ⟨"body", ⟨true, "*"⟩⟩]
      = .ok ("post", "/b", "*"))
    ∧ ("post", "/b", "*").1 = "post" ∧ ("post", "/b", "*").2.1 = "/b" := by
  refine ⟨by rfl, ?_⟩
  exact c5_last_verb_wins
    [⟨"get", ⟨true, "/a"⟩⟩, ⟨"post", ⟨true, "/b"⟩⟩, ⟨"body", ⟨true, "*"⟩⟩]
    ("post", "/b", "*") (by rfl) (by decide) ⟨"post", ⟨true, "/b"⟩⟩ (by rfl)

/-- An invalid element kind directly inside a message aborts its
translation with an error at the position of the message. -/
theorem msgLoop_other (elems : List MsgElem) :
    ∀ fname mpos t, MsgElem.other t ∈ elems →
      ∃ msg, msgLoop fname mpos elems = .error (.atPos mpos msg) := by
  induction elems with
  | nil => intro fname mpos t hmem; exact absurd hmem (List.not_mem_nil _)
  | cons e rest ih =>
    intro fname mpos t hmem
    cases e with
    | normalField f =>
      have hmem' : MsgElem.other t ∈ rest := by
        rcases List.mem_cons.mp hmem with heq | h
        · exact absurd heq (by simp)
        · exact h
      obtain ⟨msg, herr⟩ := ih fname mpos t hmem'
      exact ⟨msg, by rw [msgLoop, herr]⟩
    | enum en =>
      have hmem' : MsgElem.other t ∈ rest := by
        rcases List.mem_cons.mp hmem with heq | h
        · exact absurd heq (by simp)
        · exact h
      obtain ⟨msg, herr⟩ := ih fname mpos t hmem'
      refine ⟨msg, ?_⟩
      rw [msgLoop]
      cases hen : handleEnumCore fname en with
      | ok pr => obtain ⟨blk, ews⟩ := pr; rw [herr]
      | error err => rw [herr]
    | comment c =>
      have hmem' : MsgElem.other t ∈ rest := by
        rcases List.mem_cons.mp hmem with heq | h
        · exact absurd heq (by simp)
        · exact h
      obtain ⟨msg, herr⟩ := ih fname mpos t hmem'
      exact ⟨msg, by rw [msgLoop, herr]⟩
    | mapField f =>
      have hmem' : MsgElem.other t ∈ rest := by
        rcases List.mem_cons.mp hmem with heq | h
        · exact absurd heq (by simp)
        · exact h
      obtain ⟨msg, herr⟩ := ih fname mpos t hmem'
      exact ⟨msg, by rw [msgLoop, herr]⟩
    | opt o =>
      have hmem' : MsgElem.other t ∈ rest := by
        rcases List.mem_cons.mp hmem with heq | h
        · exact absurd heq (by simp)
        · exact h
      obtain ⟨msg, herr⟩ := ih fname mpos t hmem'
      exact ⟨msg, by rw [msgLoop, herr]⟩
    | other t' =>
      exact ⟨fname ++ ":" ++ toString mpos.line ++ ":" ++ toString mpos.col
        ++ ": " ++ ("unexpected type " ++ t' ++ " in message"),
        by rw [msgLoop]; rfl⟩

/-- An invalid element kind inside an enum fails the first scan loop with
an error at the position of the enum. -/
theorem enumScan_other (elems : List EnumElem) :
    ∀ fname epos i t, EnumElem.other t ∈ elems →
      ∃ msg, enumScan fname epos i elems = .error (.atPos epos msg) := by
  induction elems with
  | nil => intro fname epos i t hmem; exact absurd hmem (List.not_mem_nil _)
  | cons e rest ih =>
    intro fname epos i t hmem
    cases e with
    | field ef =>
      have hmem' : EnumElem.other t ∈ rest := by
        rcases List.mem_cons.mp hmem with heq | h
        · exact absurd heq (by simp)
        · exact h
      obtain ⟨msg, herr⟩ := ih fname epos (i + 1) t hmem'
      exact ⟨msg, by rw [enumScan, herr]⟩
    | opt o =>
      have hmem' : EnumElem.other t ∈ rest := by
        rcases List.mem_cons.mp hmem with heq | h
        · exact absurd heq (by simp)
        · exact h
      obtain ⟨msg, herr⟩ := ih fname epos (i + 1) t hmem'
      exact ⟨msg, by rw [enumScan, herr]⟩
    | other t' =>
      exact ⟨fname ++ ":" ++ toString epos.line ++ ":" ++ toString epos.col
        ++ ": " ++ ("unexpected type " ++ t' ++ " in enum, expected enum field"),
        by rw [enumScan]; rfl⟩

/-- `formatErr` always yields a position-annotated error. -/
theorem formatErr_atPos (fname : String) (pos : Position) (m : String) :
    ∃ msg, formatErr fname pos m = Err.atPos pos msg :=
  ⟨_, rfl⟩

/-- Every error produced by the RPC option loop is position-annotated. -/
theorem rpcOptLoop_error_atPos (elems : List RPCElem) :
    ∀ fname rpos c e, rpcOptLoop fname rpos c elems = .error e →
      ∃ pos msg, e = Err.atPos pos msg := by
  induction elems with
  | nil =>
    intro fname rpos c e h
    rw [rpcOptLoop_nil] at h
    exact absurd h (by simp)
  | cons el rest ih =>
    intro fname rpos c e h
    cases el with
    | other t =>
      rw [rpcOptLoop_cons_other] at h
      simp only [Except.error.injEq] at h
      obtain ⟨msg, hf⟩ :=
        formatErr_atPos fname rpos ("unexpected type " ++ t ++ " in service rpc, expected option")
      exact ⟨rpos, msg, h ▸ hf⟩
    | opt o =>
      rw [rpcOptLoop_cons_opt] at h
      by_cases hn : o.name = "(google.api.http)"
      · rw [if_pos hn] at h
        by_cases hmap : o.constant.orderedMap = []
        · rw [if_pos hmap] at h
          simp only [Except.error.injEq] at h
          obtain ⟨msg, hf⟩ := formatErr_atPos fname o.position "expected option to be a map"
          exact ⟨o.position, msg, h ▸ hf⟩
        · rw [if_neg hmap] at h
          cases hext : extractHttpMap "" "" "" o.constant.orderedMap with
          | error m0 =>
            rw [hext] at h
            simp only [Except.error.injEq] at h
            obtain ⟨msg, hf⟩ := formatErr_atPos fname o.position m0
            exact ⟨o.position, msg, h ▸ hf⟩
          | ok tri =>
            obtain ⟨m', u', b'⟩ := tri
            rw [hext] at h
            have h : (if m' ≠ "" ∧ u' ≠ "" then
                (match rpcOptLoop fname rpos none rest with
                 | .error e => .error e
                 | .ok (s, c2, ws, _) =>
                   .ok (commentPrefix c ++ httpMatchBlock m' u' b' ++ s, c2, ws, true))
              else rpcOptLoop fname rpos c rest) = .error e := h
            by_cases hcond : m' ≠ "" ∧ u' ≠ ""
            · rw [if_pos hcond] at h
              cases hrec : rpcOptLoop fname rpos none rest with
              | error e2 =>
                rw [hrec] at h
                simp only [Except.error.injEq] at h
                obtain ⟨pos, msg, hp⟩ := ih fname rpos none e2 hrec
                exact ⟨pos, msg, h ▸ hp⟩
              | ok q =>
                obtain ⟨s', c2', ws', u2⟩ := q
                rw [hrec] at h
                exact absurd h (by simp)
            · rw [if_neg hcond] at h
              exact ih fname rpos c e h
      · rw [if_neg hn] at h
        cases hrec : rpcOptLoop fname rpos c rest with
        | error e2 =>
          rw [hrec] at h
          simp only [Except.error.injEq] at h
          obtain ⟨pos, msg, hp⟩ := ih fname rpos c e2 hrec
          exact ⟨pos, msg, h ▸ hp⟩
        | ok q =>
          obtain ⟨s', c2', ws', u2⟩ := q
          rw [hrec] at h
          exact absurd h (by simp)

/-- Every error produced translating one RPC is position-annotated. -/
theorem handleServiceRPCCore_error_atPos (fname : String) (r : RPC) (e : Err)
    (h : handleServiceRPCCore fname r = .error e) :
    ∃ pos msg, e = Err.atPos pos msg := by
  rw [handleServiceRPCCore] at h
  cases hloop : rpcOptLoop fname r.position r.comment r.elements with
  | error e2 =>
    rw [hloop] at h
    simp only [Except.error.injEq] at h
    obtain ⟨pos, msg, hp⟩ := rpcOptLoop_error_atPos r.elements fname r.position r.comment e2 hloop
    exact ⟨pos, msg, h ▸ hp⟩
  | ok q =>
    obtain ⟨ann, c2, ws, used⟩ := q
    rw [hloop] at h
    exact absurd h (by simp)

/-- An invalid element kind directly inside a service makes the service
loop fail with a position-annotated error. -/
theorem serviceLoop_other (elems : List ServiceElem) :
    ∀ fname spos i t, ServiceElem.other t ∈ elems →
      ∃ pos msg, serviceLoop fname spos i elems = .error (.atPos pos msg) := by
  induction elems with
  | nil => intro fname spos i t hmem; exact absurd hmem (List.not_mem_nil _)
  | cons e rest ih =>
    intro fname spos i t hmem
    cases e with
    | rpc r =>
      have hmem' : ServiceElem.other t ∈ rest := by
        rcases List.mem_cons.mp hmem with heq | h
        · exact absurd heq (by simp)
        · exact h
      cases hr : handleServiceRPCCore fname r with
      | error err =>
        obtain ⟨pos, msg, hp⟩ := handleServiceRPCCore_error_atPos fname r err hr
        exact ⟨pos, msg, by rw [serviceLoop, hr, hp]⟩
      | ok tri =>
        obtain ⟨rc, ws, used⟩ := tri
        obtain ⟨pos, msg, herr⟩ := ih fname spos (i + 1) t hmem'
        exact ⟨pos, msg, by rw [serviceLoop, hr, herr]⟩
    | opt o =>
      have hmem' : ServiceElem.other t ∈ rest := by
        rcases List.mem_cons.mp hmem with heq | h
        · exact absurd heq (by simp)
        · exact h
      obtain ⟨pos, msg, herr⟩ := ih fname spos (i + 1) t hmem'
      exact ⟨pos, msg, by rw [serviceLoop, herr]⟩
    | other t' =>
      obtain ⟨msg, hf⟩ :=
        formatErr_atPos fname spos ("unexpected type " ++ t' ++ " in service, expected rpc")
      exact ⟨spos, msg, by rw [serviceLoop, hf]⟩

/-- A message none of whose direct elements is of an invalid kind always
translates successfully, whatever its nested enums contain. -/
theorem msgLoop_total (elems : List MsgElem) :
    ∀ fname mpos, (∀ t, MsgElem.other t ∉ elems) →
      ∃ res, msgLoop fname mpos elems = .ok res := by
  induction elems with
  | nil => intro fname mpos _; exact ⟨([], "", []), rfl⟩
  | cons e rest ih =>
    intro fname mpos hno
    have hno' : ∀ t, MsgElem.other t ∉ rest := by
      intro t ht
      exact hno t (List.mem_cons_of_mem _ ht)
    obtain ⟨⟨hs, s, ws⟩, hrec⟩ := ih fname mpos hno'
    cases e with
    | normalField f => exact ⟨_, by rw [msgLoop, hrec]⟩
    | enum en =>
      cases hen : handleEnumCore fname en with
      | ok pr => obtain ⟨blk, ews⟩ := pr; exact ⟨_, by rw [msgLoop, hen, hrec]⟩
      | error err => exact ⟨_, by rw [msgLoop, hen, hrec]⟩
    | comment c => exact ⟨_, by rw [msgLoop, hrec]⟩
    | mapField f => exact ⟨_, by rw [msgLoop, hrec]⟩
    | opt o => exact ⟨_, by rw [msgLoop, hrec]⟩
    | other t => exact absurd (List.mem_cons_self _ _) (hno t)

/-- Claim C6, counterexample: `c6msg` contains a nested enum whose elements
include an invalid kind (the enum alone translates to a position-annotated
error), yet translating the message succeeds — the error is discarded, so
the document is NOT aborted. -/
theorem c6_counterexample :
    (handleMessage (initBuilder "echo.proto") c6msg).isOk = true
    ∧ handleEnumCore "echo.proto" c6badEnum
        = .error (formatErr "echo.proto" c6badEnum.position
            "unexpected type *proto.Message in enum, expected enum field") := by
  constructor <;> rfl

/-- Claim C6 as amended: an element of an invalid kind directly inside a
message, enum, or service aborts the translation of that declaration with a
position-annotated error; but when the invalid element sits inside an enum
that is itself nested in a message, the enum error is discarded and the
message still translates successfully. -/
theorem c6_invalid_elements :
    (∀ (fname : String) (m : Message) (t : String), MsgElem.other t ∈ m.elements →
        ∃ msg, handleMessageCore fname m = .error (.atPos m.position msg))
    ∧ (∀ (fname : String) (e : Enum) (t : String), EnumElem.other t ∈ e.elements →
        ∃ msg, handleEnumCore fname e = .error (.atPos e.position msg))
    ∧ (∀ (fname : String) (s : Service) (t : String), ServiceElem.other t ∈ s.elements →
        ∃ pos msg, handleServiceCore fname s = .error (.atPos pos msg))
    ∧ (∀ (fname : String) (m : Message), (∀ t, MsgElem.other t ∉ m.elements) →
        ∃ res, handleMessageCore fname m = .ok res) := by
  refine ⟨?_, ?_, ?_, ?_⟩
  · intro fname m t hmem
    obtain ⟨msg, herr⟩ := msgLoop_other m.elements fname m.position t hmem
    exact ⟨msg, by rw [handleMessageCore, herr]⟩
  · intro fname e t hmem
    obtain ⟨msg, herr⟩ := enumScan_other e.elements fname e.position 0 t hmem
    exact ⟨msg, by rw [handleEnumCore, herr]⟩
  · intro fname s t hmem
    obtain ⟨pos, msg, herr⟩ := serviceLoop_other s.elements fname s.position 0 t hmem
    exact ⟨pos, msg, by rw [handleServiceCore, herr]⟩
  · intro fname m hno
    obtain ⟨⟨hs, s, ws⟩, hrec⟩ := msgLoop_total m.elements fname m.position hno
    exact ⟨_, by rw [handleMessageCore, hrec]⟩

/-- Witness for the amended C6: concrete invalid elements abort message,
enum and service translation, while the message wrapping the invalid
nested enum still translates. -/
theorem c6_invalid_elements_witness :
    (∃ msg, handleMessageCore "echo.proto" c6badMsg = .error (.atPos c6badMsg.position msg))
    ∧ (∃ msg, handleEnumCore "echo.proto" c6badEnum = .error (.atPos c6badEnum.position msg))
    ∧ (∃ pos msg, handleServiceCore "echo.proto" c6badSvc = .error (.atPos pos msg))
    ∧ (∃ res, handleMessageCore "echo.proto" c6msg = .ok res) := by
  refine ⟨?_, ?_, ?_, ?_⟩
  · exact c6_invalid_elements.1 "echo.proto" c6badMsg "*proto.Service" (by simp [c6badMsg])
  · exact c6_invalid_elements.2.1 "echo.proto" c6badEnum "*proto.Message" (by simp [c6badEnum])
  · exact c6_invalid_elements.2.2.1 "echo.proto" c6badSvc "*proto.Message" (by simp [c6badSvc])
  · exact c6_invalid_elements.2.2.2 "echo.proto" c6msg (by intro t; simp [c6msg])

theorem handleProtoType_filename {b : Builder} {e : TopElem} {b' : Builder}
    (h : handleProtoType b e = .ok b') : b'.filename = b.filename := by
  cases e with
  | syn => simp only [handleProtoType, Except.ok.injEq] at h; rw [← h]
  | pkg p => simp only [handleProtoType, Except.ok.injEq] at h; rw [← h]
  | imp i => simp only [handleProtoType, Except.ok.injEq] at h; rw [← h]
  | message m =>
    rw [handleProtoType, handleMessage] at h
    cases hmc : handleMessageCore b.filename m with
    | error err => rw [hmc] at h; exact absurd h (by simp)
    | ok tri =>
      obtain ⟨hs, chunk, ws⟩ := tri
      rw [hmc] at h
      simp only [Except.ok.injEq] at h
      rw [← h]
  | enum e =>
    rw [handleProtoType, handleEnum] at h
    cases hec : handleEnumCore b.filename e with
    | error err => rw [hec] at h; exact absurd h (by simp)
    | ok pr =>
      obtain ⟨blk, ws⟩ := pr
      rw [hec] at h
      simp only [Except.ok.injEq] at h
      rw [← h]
  | service s =>
    rw [handleProtoType, handleService] at h
    cases hsc : handleServiceCore b.filename s with
    | error err => rw [hsc] at h; exact absurd h (by simp)
    | ok tri =>
      obtain ⟨chunk, ws, used⟩ := tri
      rw [hsc] at h
      simp only [Except.ok.injEq] at h
      rw [← h]
  | opt o => simp only [handleProtoType, Except.ok.injEq] at h; rw [← h]
  | other t => exact absurd h (by simp [handleProtoType])

/-- The hoisted blocks collected by the message loop are exactly the blocks
of its nested enums, in encounter order. -/
theorem msgLoop_hoisted (elems : List MsgElem) :
    ∀ fname mpos hs s ws, msgLoop fname mpos elems = .ok (hs, s, ws) →
      hs = nestedEnumBlocks fname elems := by
  induction elems with
  | nil =>
    intro fname mpos hs s ws h
    simp only [msgLoop, Except.ok.injEq, Prod.mk.injEq] at h
    rw [← h.1]
    rfl
  | cons e rest ih =>
    intro fname mpos hs s ws h
    cases e with
    | normalField f =>
      rw [msgLoop] at h
      cases hrec : msgLoop fname mpos rest with
      | error err => rw [hrec] at h; exact absurd h (by simp)
      | ok tri =>
        obtain ⟨hs', s', ws'⟩ := tri
        rw [hrec] at h
        simp only [Except.ok.injEq, Prod.mk.injEq] at h
        rw [← h.1, nestedEnumBlocks]
        exact ih fname mpos hs' s' ws' hrec
    | enum en =>
      rw [msgLoop] at h
      cases hen : handleEnumCore fname en with
      | ok pr =>
        obtain ⟨blk, ews⟩ := pr
        rw [hen] at h
        cases hrec : msgLoop fname mpos rest with
        | error err => rw [hrec] at h; exact absurd h (by simp)
        | ok tri =>
          obtain ⟨hs', s', ws'⟩ := tri
          rw [hrec] at h
          simp only [Except.ok.injEq, Prod.mk.injEq] at h
          rw [← h.1, nestedEnumBlocks, enumHoistBlock, hen]
          rw [ih fname mpos hs' s' ws' hrec]
          rfl
      | error err =>
        rw [hen] at h
        rw [nestedEnumBlocks, enumHoistBlock, hen]
        simpa using ih fname mpos hs s ws h
    | comment c =>
      rw [msgLoop] at h
      cases hrec : msgLoop fname mpos rest with
      | error err => rw [hrec] at h; exact absurd h (by simp)
      | ok tri =>
        obtain ⟨hs', s', ws'⟩ := tri
        rw [hrec] at h
        simp only [Except.ok.injEq, Prod.mk.injEq] at h
        rw [← h.1, nestedEnumBlocks]
        exact ih fname mpos hs' s' ws' hrec
    | mapField f =>
      rw [msgLoop] at h
      cases hrec : msgLoop fname mpos rest with
      | error err => rw [hrec] at h; exact absurd h (by simp)
      | ok tri =>
        obtain ⟨hs', s', ws'⟩ := tri
        rw [hrec] at h
        simp only [Except.ok.injEq, Prod.mk.injEq] at h
        rw [← h.1, nestedEnumBlocks]
        exact ih fname mpos hs' s' ws' hrec
    | opt o =>
      rw [msgLoop] at h
      cases hrec : msgLoop fname mpos rest with
      | error err => rw [hrec] at h; exact absurd h (by simp)
      | ok tri =>
        obtain ⟨hs', s', ws'⟩ := tri
        rw [hrec] at h
        simp only [Except.ok.injEq, Prod.mk.injEq] at h
        rw [← h.1, nestedEnumBlocks]
        exact ih fname mpos hs' s' ws' hrec
    | other t =>
      rw [msgLoop] at h
      exact absurd h (by simp)

/-- Each dispatched top-level element appends exactly its blocks. -/
theorem handleProtoType_blocks {b : Builder} {e : TopElem} {b' : Builder}
    (h : handleProtoType b e = .ok b') :
    b'.translatedDeclarations
      = b.translatedDeclarations ++ topElemBlocks b.filename e := by
  cases e with
  | syn => simp only [handleProtoType, Except.ok.injEq] at h; rw [← h]; simp [topElemBlocks]
  | pkg p => simp only [handleProtoType, Except.ok.injEq] at h; rw [← h]; simp [topElemBlocks]
  | imp i => simp only [handleProtoType, Except.ok.injEq] at h; rw [← h]; simp [topElemBlocks]
  | message m =>
    rw [handleProtoType, handleMessage] at h
    cases hmc : handleMessageCore b.filename m with
    | error err => rw [hmc] at h; exact absurd h (by simp)
    | ok tri =>
      obtain ⟨hs, chunk, ws⟩ := tri
      rw [hmc] at h
      simp only [Except.ok.injEq] at h
      rw [← h]
      simp only [topElemBlocks, hmc]
      rw [List.append_assoc]
  | enum e =>
    rw [handleProtoType, handleEnum] at h
    cases hec : handleEnumCore b.filename e with
    | error err => rw [hec] at h; exact absurd h (by simp)
    | ok pr =>
      obtain ⟨blk, ws⟩ := pr
      rw [hec] at h
      simp only [Except.ok.injEq] at h
      rw [← h]
      simp only [topElemBlocks, hec]
  | service s =>
    rw [handleProtoType, handleService] at h
    cases hsc : handleServiceCore b.filename s with
    | error err => rw [hsc] at h; exact absurd h (by simp)
    | ok tri =>
      obtain ⟨chunk, ws, used⟩ := tri
      rw [hsc] at h
      simp only [Except.ok.injEq] at h
      rw [← h]
      simp only [topElemBlocks, hsc]
  | opt o => simp only [handleProtoType, Except.ok.injEq] at h; rw [← h]; simp [topElemBlocks]
  | other t => exact absurd h (by simp [handleProtoType])

/-- Claim C9: the translated-declaration list of the accumulator preserves the
top-level declaration order of the document (each element contributing its
blocks in place), and a nested enum of a message is hoisted out as a
sibling block immediately when encountered — i.e. the hoisted blocks
preceding the block of the message itself are exactly the blocks of its nested enums in
encounter order. -/
theorem c9_declaration_order :
    (∀ (b : Builder) (elems : List TopElem) (b' : Builder),
        processElems b elems = .ok b' →
        b'.translatedDeclarations = b.translatedDeclarations ++ docBlocks b.filename elems)
    ∧ (∀ (fname : String) (m : Message) (hs : List String) (chunk : String) (ws : List String),
        handleMessageCore fname m = .ok (hs, chunk, ws) →
        hs = nestedEnumBlocks fname m.elements) := by
  constructor
  · intro b elems
    induction elems generalizing b with
    | nil =>
      intro b' h
      simp only [processElems, Except.ok.injEq] at h
      rw [← h]
      simp [docBlocks]
    | cons e rest ih =>
      intro b' h
      rw [processElems] at h
      cases hstep : handleProtoType b e with
      | error err => rw [hstep] at h; exact absurd h (by simp)
      | ok b2 =>
        rw [hstep] at h
        have h1 := handleProtoType_blocks hstep
        have h2 := ih b2 b' h
        have hf := handleProtoType_filename hstep
        rw [h2, h1, hf, docBlocks, List.append_assoc]
  · intro fname m hs chunk ws h
    rw [handleMessageCore] at h
    cases hml : msgLoop fname m.position m.elements with
    | error err => rw [hml] at h; exact absurd h (by simp)
    | ok tri =>
      obtain ⟨hs', body, ws2⟩ := tri
      rw [hml] at h
      simp only [Except.ok.injEq, Prod.mk.injEq] at h
      rw [← h.1]
      exact msgLoop_hoisted m.elements fname m.position hs' body ws2 hml

/-- Witness for C9 on a concrete two-declaration document with a nested
enum. -/
theorem c9_declaration_order_witness :
    c9res.translatedDeclarations
      = (initBuilder "echo.proto").translatedDeclarations
        ++ docBlocks "echo.proto" c9elems
    ∧ c9coreRes.1 = nestedEnumBlocks "echo.proto" c9msgNested.elements := by
  constructor
  · exact c9_declaration_order.1 (initBuilder "echo.proto") c9elems c9res rfl
  · exact c9_declaration_order.2 "echo.proto" c9msgNested
      c9coreRes.1 c9coreRes.2.1 c9coreRes.2.2 rfl

theorem setInsert_nodup (l : List String) (k : String) (h : l.Nodup) :
    (setInsert l k).Nodup := by
  unfold setInsert
  split
  · exact h
  · rename_i hk
    rw [List.nodup_append]
    refine ⟨h, List.nodup_singleton k, ?_⟩
    intro a ha hb
    simp at hb
    subst hb
    exact hk ha

theorem foldl_setInsert_nodup (imps : List String) :
    ∀ l, l.Nodup → (imps.foldl setInsert l).Nodup := by
  induction imps with
  | nil => intro l h; exact h
  | cons i rest ih =>
    intro l h
    exact ih (setInsert l i) (setInsert_nodup l i h)

theorem handleProtoType_importsUsed_nodup {b : Builder} {e : TopElem} {b' : Builder}
    (h : handleProtoType b e = .ok b') (hn : b.importsUsed.Nodup) :
    b'.importsUsed.Nodup := by
  cases e with
  | syn => simp only [handleProtoType, Except.ok.injEq] at h; rw [← h]; exact hn
  | pkg p => simp only [handleProtoType, Except.ok.injEq] at h; rw [← h]; exact hn
  | imp i => simp only [handleProtoType, Except.ok.injEq] at h; rw [← h]; exact hn
  | message m =>
    rw [handleProtoType, handleMessage] at h
    cases hmc : handleMessageCore b.filename m with
    | error err => rw [hmc] at h; exact absurd h (by simp)
    | ok tri =>
      obtain ⟨hs, chunk, ws⟩ := tri
      rw [hmc] at h
      simp only [Except.ok.injEq] at h
      rw [← h]
      exact hn
  | enum e =>
    rw [handleProtoType, handleEnum] at h
    cases hec : handleEnumCore b.filename e with
    | error err => rw [hec] at h; exact absurd h (by simp)
    | ok pr =>
      obtain ⟨blk, ws⟩ := pr
      rw [hec] at h
      simp only [Except.ok.injEq] at h
      rw [← h]
      exact hn
  | service s =>
    rw [handleProtoType, handleService] at h
    cases hsc : handleServiceCore b.filename s with
    | error err => rw [hsc] at h; exact absurd h (by simp)
    | ok tri =>
      obtain ⟨chunk, ws, used⟩ := tri
      rw [hsc] at h
      simp only [Except.ok.injEq] at h
      rw [← h]
      cases used with
      | true => exact setInsert_nodup _ _ hn
      | false => exact hn
  | opt o => simp only [handleProtoType, Except.ok.injEq] at h; rw [← h]; exact hn
  | other t => exact absurd h (by simp [handleProtoType])

theorem processElems_importsUsed_nodup (elems : List TopElem) :
    ∀ b b', processElems b elems = .ok b' → b.importsUsed.Nodup →
      b'.importsUsed.Nodup := by
  induction elems with
  | nil =>
    intro b b' h hn
    simp only [processElems, Except.ok.injEq] at h
    rw [← h]
    exact hn
  | cons e rest ih =>
    intro b b' h hn
    rw [processElems] at h
    cases hstep : handleProtoType b e with
    | error err => rw [hstep] at h; exact absurd h (by simp)
    | ok b2 =>
      rw [hstep] at h
      exact ih b2 b' h (handleProtoType_importsUsed_nodup hstep hn)

/-- Claim C10: the required-imports accumulator is a set keyed by import
path — after processing any document from a fresh builder and translating
its package, the import list has no duplicates, so each required
annotation import path appears at most once in the emitted import block. -/
theorem c10_imports_unique (fname : String) (elems : List TopElem)
    (b1 : Builder) (s : String) (b2 : Builder)
    (h1 : processElems (initBuilder fname) elems = .ok b1)
    (h2 : handlePackage b1 = .ok (s, b2)) :
    b2.importsUsed.Nodup ∧ ∀ p, b2.importsUsed.count p ≤ 1 := by
  have hn1 : b1.importsUsed.Nodup :=
    processElems_importsUsed_nodup elems (initBuilder fname) b1 h1 List.nodup_nil
  have hn2 : b2.importsUsed.Nodup := by
    rw [handlePackage] at h2
    cases hpc : handlePackageCore b1.filename b1.pkg b1.pkgOpts with
    | error err => rw [hpc] at h2; exact absurd h2 (by simp)
    | ok pr =>
      obtain ⟨s', imps⟩ := pr
      rw [hpc] at h2
      simp only [Except.ok.injEq, Prod.mk.injEq] at h2
      rw [← h2.2]
      exact foldl_setInsert_nodup imps b1.importsUsed hn1
  exact ⟨hn2, fun p => List.nodup_iff_count_le_one.mp hn2 p⟩

/-- Witness for C10: a document marking the java import twice and the
http import once ends with a duplicate-free import set. -/
theorem c10_imports_unique_witness :
    c10b2.importsUsed.Nodup
    ∧ c10b2.importsUsed.count "github.com/gunk/opt/file/java" ≤ 1 := by
  have h := c10_imports_unique "echo.proto" c10elems c10b1 c10s c10b2 rfl rfl
  exact ⟨h.1, h.2 "github.com/gunk/opt/file/java"⟩

/-- If the option list of an RPC contains an http routing option whose map
yields a verb and a non-empty url, the output of the option loop contains the
annotation block and reports the http import as used. -/
theorem rpcOptLoop_http (elems : List RPCElem) :
    ∀ fname rpos c s c2 ws used o m u bod,
      rpcOptLoop fname rpos c elems = .ok (s, c2, ws, used) →
      RPCElem.opt o ∈ elems →
      o.name = "(google.api.http)" →
      extractHttpMap "" "" "" o.constant.orderedMap = .ok (m, u, bod) →
      m ≠ "" → u ≠ "" →
      occursIn (httpMatchBlock m u bod) s ∧ used = true := by
  induction elems with
  | nil =>
    intro fname rpos c s c2 ws used o m u bod _ hmem
    exact fun _ _ _ _ => absurd hmem (List.not_mem_nil _)
  | cons e rest ih =>
    intro fname rpos c s c2 ws used o m u bod h hmem hname hex hm hu
    cases e with
    | other t => rw [rpcOptLoop_cons_other] at h; exact absurd h (by simp)
    | opt o' =>
      rw [rpcOptLoop_cons_opt] at h
      by_cases hn' : o'.name = "(google.api.http)"
      · rw [if_pos hn'] at h
        by_cases hmap : o'.constant.orderedMap = []
        · rw [if_pos hmap] at h
          exact absurd h (by simp)
        · rw [if_neg hmap] at h
          cases hext : extractHttpMap "" "" "" o'.constant.orderedMap with
          | error msg => rw [hext] at h; exact absurd h (by simp)
          | ok tri =>
            obtain ⟨m', u', b'⟩ := tri
            rw [hext] at h
            have h : (if m' ≠ "" ∧ u' ≠ "" then
                (match rpcOptLoop fname rpos none rest with
                 | .error e => .error e
                 | .ok (s, c2, ws, _) =>
                   .ok (commentPrefix c ++ httpMatchBlock m' u' b' ++ s, c2, ws, true))
              else rpcOptLoop fname rpos c rest) = .ok (s, c2, ws, used) := h
            by_cases hcond : m' ≠ "" ∧ u' ≠ ""
            · rw [if_pos hcond] at h
              cases hrec : rpcOptLoop fname rpos none rest with
              | error err => rw [hrec] at h; exact absurd h (by simp)
              | ok q =>
                obtain ⟨s', c2', ws', used'⟩ := q
                rw [hrec] at h
                simp only [Except.ok.injEq, Prod.mk.injEq] at h
                obtain ⟨h1, _, _, h4⟩ := h
                refine ⟨?_, h4.symm⟩
                rcases List.mem_cons.mp hmem with heq | hmem'
                · injection heq with ho'
                  subst ho'
                  have hinj := hex.symm.trans hext
                  simp only [Except.ok.injEq, Prod.mk.injEq] at hinj
                  obtain ⟨hm', hu', hb'⟩ := hinj
                  rw [← h1, ← hm', ← hu', ← hb']
                  exact occursIn_append_right s' (occursIn_append_left _ (occursIn_rfl _))
                · have hr := ih fname rpos none s' c2' ws' used' o m u bod hrec hmem' hname hex hm hu
                  rw [← h1]
                  exact occursIn_append_left _ hr.1
            · rw [if_neg hcond] at h
              rcases List.mem_cons.mp hmem with heq | hmem'
              · injection heq with ho'
                subst ho'
                have hinj := hex.symm.trans hext
                simp only [Except.ok.injEq, Prod.mk.injEq] at hinj
                obtain ⟨hm', hu', _⟩ := hinj
                exact absurd ⟨hm' ▸ hm, hu' ▸ hu⟩ hcond
              · exact ih fname rpos c s c2 ws used o m u bod h hmem' hname hex hm hu
      · rw [if_neg hn'] at h
        cases hrec : rpcOptLoop fname rpos c rest with
        | error err => rw [hrec] at h; exact absurd h (by simp)
        | ok q =>
          obtain ⟨s', c2', ws', used'⟩ := q
          rw [hrec] at h
          simp only [Except.ok.injEq, Prod.mk.injEq] at h
          obtain ⟨h1, _, _, h4⟩ := h
          rcases List.mem_cons.mp hmem with heq | hmem'
          · injection heq with ho'
            subst ho'
            exact absurd hname hn'
          · have hr := ih fname rpos c s' c2' ws' used' o m u bod hrec hmem' hname hex hm hu
            exact ⟨h1 ▸ hr.1, h4 ▸ hr.2⟩

/-- Lifting `rpcOptLoop_http` to the translation of one RPC. -/
theorem handleServiceRPCCore_http (fname : String) (r : RPC) (chunk : String)
    (ws : List String) (used : Bool) (o : ProtoOption) (m u bod : String)
    (h : handleServiceRPCCore fname r = .ok (chunk, ws, used))
    (ho : RPCElem.opt o ∈ r.elements) (hname : o.name = "(google.api.http)")
    (hex : extractHttpMap "" "" "" o.constant.orderedMap = .ok (m, u, bod))
    (hm : m ≠ "") (hu : u ≠ "") :
    occursIn (httpMatchBlock m u bod) chunk ∧ used = true := by
  rw [handleServiceRPCCore] at h
  cases hloop : rpcOptLoop fname r.position r.comment r.elements with
  | error err => rw [hloop] at h; exact absurd h (by simp)
  | ok q =>
    obtain ⟨ann, c2, ws', used'⟩ := q
    rw [hloop] at h
    simp only [Except.ok.injEq, Prod.mk.injEq] at h
    obtain ⟨h1, _, h3⟩ := h
    have hr := rpcOptLoop_http r.elements fname r.position r.comment ann c2 ws' used'
      o m u bod hloop ho hname hex hm hu
    exact ⟨h1 ▸ occursIn_append_right _ hr.1, h3 ▸ hr.2⟩

/-- Lifting to the whole service loop. -/
theorem serviceLoop_http (elems : List ServiceElem) :
    ∀ fname spos i s ws used r o m u bod,
      serviceLoop fname spos i elems = .ok (s, ws, used) →
      ServiceElem.rpc r ∈ elems →
      RPCElem.opt o ∈ r.elements → o.name = "(google.api.http)" →
      extractHttpMap "" "" "" o.constant.orderedMap = .ok (m, u, bod) →
      m ≠ "" → u ≠ "" →
      occursIn (httpMatchBlock m u bod) s ∧ used = true := by
  induction elems with
  | nil =>
    intro fname spos i s ws used r o m u bod _ hmem
    exact fun _ _ _ _ _ => absurd hmem (List.not_mem_nil _)
  | cons e rest ih =>
    intro fname spos i s ws used r o m u bod h hmem ho hname hex hm hu
    cases e with
    | other t => rw [serviceLoop] at h; exact absurd h (by simp)
    | opt o' =>
      rw [serviceLoop] at h
      cases hrec : serviceLoop fname spos (i + 1) rest with
      | error err => rw [hrec] at h; exact absurd h (by simp)
      | ok q =>
        obtain ⟨s', ws', u'⟩ := q
        rw [hrec] at h
        simp only [Except.ok.injEq, Prod.mk.injEq] at h
        obtain ⟨h1, _, h3⟩ := h
        rcases List.mem_cons.mp hmem with heq | hmem'
        · exact absurd heq (by simp)
        · have hr := ih fname spos (i + 1) s' ws' u' r o m u bod hrec hmem' ho hname hex hm hu
          exact ⟨h1 ▸ hr.1, h3 ▸ hr.2⟩
    | rpc r' =>
      rw [serviceLoop] at h
      cases hcore : handleServiceRPCCore fname r' with
      | error err => rw [hcore] at h; exact absurd h (by simp)
      | ok tri =>
        obtain ⟨rc, ws0, used0⟩ := tri
        rw [hcore] at h
        cases hrec : serviceLoop fname spos (i + 1) rest with
        | error err => rw [hrec] at h; exact absurd h (by simp)
        | ok q =>
          obtain ⟨s', ws1, u1⟩ := q
          rw [hrec] at h
          simp only [Except.ok.injEq, Prod.mk.injEq] at h
          obtain ⟨h1, _, h3⟩ := h
          rcases List.mem_cons.mp hmem with heq | hmem'
          · injection heq with hr'
            subst hr'
            have hc := handleServiceRPCCore_http fname r rc ws0 used0 o m u bod hcore ho hname hex hm hu
            constructor
            · rw [← h1]
              exact occursIn_append_right s' (occursIn_append_left _ hc.1)
            · rw [← h3, hc.2, Bool.true_or]
          · have hr := ih fname spos (i + 1) s' ws1 u1 r o m u bod hrec hmem' ho hname hex hm hu
            constructor
            · rw [← h1]
              exact occursIn_append_left _ hr.1
            · rw [← h3, hr.2, Bool.or_true]

/-- Claim C1: for an RPC method carrying the `(google.api.http)` option
whose ordered map yields a verb and a non-empty path, a successfully
translated service block contains the `http.Match` annotation block —
verb upper-cased in a `Method:` line, path quoted in a `Path:` line, a
`Body:` line exactly when a non-empty body was present (`httpMatchBlock`) —
and the builder marks the `github.com/gunk/opt/http` import as required. -/
theorem c1_http_annotation (b : Builder) (s : Service) (b' : Builder)
    (r : RPC) (o : ProtoOption) (m u bod : String)
    (hsvc : handleService b s = .ok b')
    (hr : ServiceElem.rpc r ∈ s.elements)
    (ho : RPCElem.opt o ∈ r.elements)
    (hname : o.name = "(google.api.http)")
    (hex : extractHttpMap "" "" "" o.constant.orderedMap = .ok (m, u, bod))
    (hm : m ≠ "") (hu : u ≠ "") :
    (∃ chunk, b'.translatedDeclarations = b.translatedDeclarations ++ [chunk]
        ∧ occursIn (httpMatchBlock m u bod) chunk)
    ∧ httpImportPath ∈ b'.importsUsed := by
  rw [handleService] at hsvc
  cases hsc : handleServiceCore b.filename s with
  | error err => rw [hsc] at hsvc; exact absurd hsvc (by simp)
  | ok tri =>
    obtain ⟨chunk, ws, used⟩ := tri
    rw [hsc] at hsvc
    simp only [Except.ok.injEq] at hsvc
    rw [handleServiceCore] at hsc
    cases hloop : serviceLoop b.filename s.position 0 s.elements with
    | error err => rw [hloop] at hsc; exact absurd hsc (by simp)
    | ok q =>
      obtain ⟨body, ws2, used2⟩ := q
      rw [hloop] at hsc
      simp only [Except.ok.injEq, Prod.mk.injEq] at hsc
      obtain ⟨hchunk, _, hused⟩ := hsc
      have hl := serviceLoop_http s.elements b.filename s.position 0 body ws2 used2
        r o m u bod hloop hr ho hname hex hm hu
      constructor
      · refine ⟨chunk, ?_, ?_⟩
        · rw [← hsvc]
        · rw [← hchunk]
          exact occursIn_append_right _ (occursIn_append_left _ hl.1)
      · have : b'.importsUsed
            = if used then setInsert b.importsUsed httpImportPath else b.importsUsed := by
          rw [← hsvc]
        rw [this, ← hused, hl.2, if_pos rfl, setInsert]
        split
        · assumption
        · exact List.mem_append_right _ (List.mem_singleton.mpr rfl)

/-- Witness for C1: the `get /v1/echo` routing option on `CheckStatus`
produces the annotation block in the service declaration and marks the
http import. -/
theorem c1_http_annotation_witness :
    (∃ chunk, c1res.translatedDeclarations
        = (initBuilder "echo.proto").translatedDeclarations ++ [chunk]
        ∧ occursIn (httpMatchBlock "get" "/v1/echo" "") chunk)
    ∧ httpImportPath ∈ c1res.importsUsed := by
  exact c1_http_annotation (initBuilder "echo.proto") c1svc c1res c1rpc c1opt
    "get" "/v1/echo" "" rfl (by simp [c1svc]) (by simp [c1rpc]) rfl rfl
    (by decide) (by decide)

end Gunk
